import Mathlib

/-!
# Ritchie CLI: formula namespace resolution and deletion

A shallow embedding of `pkg/cmd/delete_formula.go` and `pkg/cmd/rename_formula.go`.

* Go strings are Lean strings; `strings.Split` and `filepath.Join` are written
  over the character lists of their arguments.
* The filesystem is a finite store of absolute, cleaned paths (lists of
  components below `/`), each bound to a file or a directory; a path string
  is read from `/`, so workspace directories are taken to be absolute, and
  two spellings of one path (`/ws` and `/ws/.`) are not told apart: where the
  operating system refuses a spelling, that is a failure given by `Faults`.
* A Go `error` result is an `Option Err` (`none` is `nil`); a function that also
  changes the disk returns the disk it leaves behind, on failure as well.
* Failures of the operating system and of the injected collaborators are given
  by a `Faults` record, over which every theorem quantifies.
* A Go slice is its backing array with a length, so that the writes of
  `append` through one slice are seen through the slices that share the array.
* The prompt is the sequence of answers still to come.
-/

namespace Ritchie

/-! ## Strings -/

/-- Pieces of a character list between occurrences of the separator `sep`;
there is always at least one piece. -/
def splitChars (sep : Char) : List Char → List (List Char)
  | [] => [[]]
  | c :: cs =>
    if c = sep then [] :: splitChars sep cs
    else
      match splitChars sep cs with
      | [] => [[c]]
      | w :: ws => (c :: w) :: ws

/-- Go `strings.Split(s, sep)` for a separator of one character. -/
def Split (s : String) (sep : Char) : List String :=
  (splitChars sep s.data).map String.mk

/-- Go `strings.EqualFold(s, t)`: equality rune by rune under case folding.
The folding `fold` sends a rune to the representative of its case orbit. -/
def EqualFold (fold : Char → Char) (s t : String) : Bool :=
  s.data.map fold == t.data.map fold

/-! ## Errors -/

/-- Go error values that the two commands can return. -/
inductive Err where
  /-- The sentinel `ErrIncorrectFormulaName`. -/
  | ErrIncorrectFormulaName
  /-- The sentinel `ErrCouldNotFindFormula`. -/
  | ErrCouldNotFindFormula
  /-- The sentinel `work.ErrInvalidWorkspace` of the workspace package. -/
  | ErrInvalidWorkspace
  /-- An error made by `errors.New` or `fmt.Errorf`, with its message. -/
  | msg (text : String)
  /-- A failed system call: operation and path. -/
  | pathError (op : String) (path : List String)
  /-- Any other failure raised by a collaborator, by code. -/
  | other (code : Nat)
  deriving DecidableEq, Repr

deriving instance DecidableEq for Except

/-! ## Constants of package cmd -/

/-- Modelled from the spec: the constant `cmdUse` is declared in a file of
package cmd that is not among the sources; the spec calls it the tool's
invocation name and uses `rit` for it. -/
def cmdUse : String := "rit"

def docsDir : String := "docs"
def srcDir : String := "src"
def optionOtherFormula : String := "Another formula"
def workspaceFlagName : String := "workspace"
def formulaFlagName : String := "formula"
def oldFormulaFlagName : String := "old-name-formula"
def newFormulaFlagName : String := "new-name-formula"

/-! ## Formula names -/

/-- Source: `getGroupsFromFormulaName`. -/
def getGroupsFromFormulaName (formulaName : String) : Except Err (List String) :=
  let groups := Split formulaName ' '
  if groups.length > 0 ∧ groups.head? = some cmdUse then
    .ok (groups.drop 1)
  else
    .error Err.ErrIncorrectFormulaName

/-- Source: `cleanFormula` of the rename command. -/
def cleanFormula (formula : String) : List String :=
  (Split formula ' ').drop 1

/-! ## Paths -/

/-- An absolute, cleaned path: the components below the filesystem root. -/
abbrev Path := List String

/-- One step of `filepath.Clean` on an absolute path: an empty component and
`.` are dropped, `..` removes the last component (and is dropped at the
root), any other component is appended. -/
def cleanStep (path : Path) (c : String) : Path :=
  if c = "" ∨ c = "." then path
  else if c = ".." then path.dropLast
  else path ++ [c]

/-- Go `filepath.Join(path, elem)` for an absolute cleaned `path`: the
element is cut at the separators and cleaned into the path. -/
def Join (path : Path) (elem : String) : Path :=
  (Split elem '/').foldl cleanStep path

/-- The path `Join(...Join(Join(path, g1), g2)..., gn)`. -/
def JoinAll (path : Path) (groups : List String) : Path :=
  groups.foldl Join path

/-- The path denoted by a path string, read from the filesystem root: the
string is cut at the separators and cleaned, as `filepath.Join` and the
operating system resolve it. What depends on the spelling of the string and
not on the path it denotes is not seen here: `os.RemoveAll` refuses a spelling
that ends in `/.` (the workspace `/ws/.` with no group), which in this
development is a failure of `removeAll` in `Faults`, and a relative spelling is
read from `/` and not from the working directory. -/
def toPath (s : String) : Path := Join [] s

/-- A string that names one directory entry: not empty, not `.` or `..`,
and without a separator. -/
def isName (s : String) : Prop :=
  s ≠ "" ∧ s ≠ "." ∧ s ≠ ".." ∧ '/' ∉ s.data

instance (s : String) : Decidable (isName s) := by
  unfold isName; infer_instance

/-- Whether `q` is `p` or lies beneath `p`. -/
def under : Path → Path → Bool
  | [], _ => true
  | _ :: _, [] => false
  | a :: p, b :: q => a == b && under p q

/-! ## The filesystem -/

/-- What a path is bound to. -/
inductive Node where
  | file (content : String)
  | dir
  deriving DecidableEq, Repr

/-- Whether a node is a directory (`os.FileInfo.IsDir`). -/
def Node.isDir : Node → Bool
  | .dir => true
  | .file _ => false

/-- The filesystem: the existing paths with what they are. -/
abbrev FS := List (Path × Node)

/-- What exists at a path, if anything. -/
def stat (fs : FS) (p : Path) : Option Node :=
  (fs.find? (fun e => e.1 == p)).map (fun e => e.2)

/-- The store restricted to the paths satisfying `keep`. -/
def restrict (keep : Path → Bool) (fs : FS) : FS :=
  fs.filter (fun e => keep e.1)

/-- A well-formed filesystem: no path is bound twice, every component is a
name, and the parent of every entry is a directory. -/
def WF (fs : FS) : Prop :=
  (fs.map (fun e => e.1)).Nodup ∧
  (∀ e ∈ fs, ∀ c ∈ e.1, isName c) ∧
  (∀ e ∈ fs, e.1 ≠ [] → stat fs e.1.dropLast = some Node.dir)

instance (fs : FS) : Decidable (WF fs) := by
  unfold WF; infer_instance

/-- One entry of a directory listing (`os.FileInfo`): name and `IsDir`. -/
structure FileInfo where
  Name : String
  IsDir : Bool
  deriving DecidableEq, Repr

/-- The listing entry of `e` when `e` sits directly inside `p`. -/
def childInfo (p : Path) (e : Path × Node) : Option FileInfo :=
  if e.1.dropLast = p then
    match e.1.getLast? with
    | some n => some ⟨n, e.2.isDir⟩
    | none => none
  else none

/-- Failures of the operating system and of the collaborators: for each call,
given the disk and the path, the error it returns if it fails. A failing call
leaves the disk as it was. -/
structure Faults where
  readDir : FS → Path → Option Err
  removeAll : FS → Path → Option Err
  remove : FS → Path → Option Err
  write : FS → Path → Option Err

/-- No call fails. -/
def noFaults : Faults :=
  ⟨fun _ _ => none, fun _ _ => none, fun _ _ => none, fun _ _ => none⟩

/-- Go `ioutil.ReadDir(path)`: the entries directly inside a directory, or
an error when the path is not a directory or the read fails. The entries come
in the order of the store (Go sorts them by name); the order only decides
which removal of `safeRemoveFormula` fails first when several would fail. -/
def ReadDir (sys : Faults) (fs : FS) (path : Path) : Except Err (List FileInfo) :=
  match stat fs path with
  | some Node.dir =>
    match sys.readDir fs path with
    | some e => .error e
    | none => .ok (fs.filterMap (childInfo path))
  | _ => .error (Err.pathError "open" path)

/-- Go `os.RemoveAll(path)`: removes the path and everything beneath it;
a path that does not exist is not an error. -/
def RemoveAll (sys : Faults) (path : Path) (fs : FS) : Option Err × FS :=
  match sys.removeAll fs path with
  | some e => (some e, fs)
  | none => (none, restrict (fun q => !under path q) fs)

/-- Modelled from the spec: `fileManager.Remove(path)` of the File Remover
collaborator (`Remove(path) -> error`), whose code is not among the sources:
a file is removed, an empty directory is removed, a directory with entries is
an error, and a path that does not exist is left alone. -/
def Remove (sys : Faults) (path : Path) (fs : FS) : Option Err × FS :=
  match sys.remove fs path with
  | some e => (some e, fs)
  | none =>
    match stat fs path with
    | none => (none, fs)
    | some (Node.file _) => (none, restrict (fun q => q != path) fs)
    | some Node.dir =>
      if (fs.filterMap (childInfo path)).isEmpty then
        (none, restrict (fun q => q != path) fs)
      else (some (Err.pathError "remove" path), fs)

/-! ## Deleting a formula -/

/-- Source: `nestedFormula`. -/
def nestedFormula (sys : Faults) (fs : FS) (path : Path) : Except Err Bool :=
  match ReadDir sys fs path with
  | .error e => .error e
  | .ok files => .ok (files.any (fun f => f.IsDir && f.Name != "src" && f.Name != "bin"))

/-- Source: `canDelete`. -/
def canDelete (sys : Faults) (fs : FS) (path : Path) : Except Err Bool :=
  match ReadDir sys fs path with
  | .error e => .error e
  | .ok files => .ok (!files.any (fun f => f.IsDir))

/-- The loop of `safeRemoveFormula` over the listing read at its start. -/
def safeRemoveLoop (sys : Faults) (path : Path) : List FileInfo → FS → Option Err × FS
  | [], fs => (none, fs)
  | f :: files, fs =>
    if f.IsDir && (f.Name == "src" || f.Name == "bin") then
      match RemoveAll sys (Join path f.Name) fs with
      | (some e, fs1) => (some e, fs1)
      | (none, fs1) => safeRemoveLoop sys path files fs1
    else if !f.IsDir then
      match Remove sys (Join path f.Name) fs with
      | (some e, fs1) => (some e, fs1)
      | (none, fs1) => safeRemoveLoop sys path files fs1
    else safeRemoveLoop sys path files fs

/-- Source: `deleteFormulaCmd.safeRemoveFormula`. -/
def safeRemoveFormula (sys : Faults) (path : Path) (fs : FS) : Option Err × FS :=
  match ReadDir sys fs path with
  | .error e => (some e, fs)
  | .ok files => safeRemoveLoop sys path files fs

/-- The recursion of `deleteFormula` on the groups still ahead,
`groups[index:]`: the empty list is the case `index == len(groups)`. -/
def deleteFormulaFrom (sys : Faults) : List String → Nat → Path → FS → Option Err × FS
  | [], _, path, fs =>
    match nestedFormula sys fs path with
    | .error e => (some e, fs)
    | .ok true => safeRemoveFormula sys path fs
    | .ok false => RemoveAll sys path fs
  | g :: rest, index, path, fs =>
    match deleteFormulaFrom sys rest (index + 1) (Join path g) fs with
    | (some e, fs1) => (some e, fs1)
    | (none, fs1) =>
      if index = 0 then (none, fs1)
      else
        match canDelete sys fs1 path with
        | .error e => (some e, fs1)
        | .ok ok =>
          if ok then RemoveAll sys path fs1
          else (none, fs1)

/-- Source: `deleteFormulaCmd.deleteFormula(path, groups, index)`, for
`index <= len(groups)`. -/
def deleteFormula (sys : Faults) (path : Path) (groups : List String) (index : Nat)
    (fs : FS) : Option Err × FS :=
  deleteFormulaFrom sys (groups.drop index) index path fs

/-! ## The delete command -/

/-- The type `formula.Workspace`: a registered workspace. -/
structure Workspace where
  Name : String
  Dir : String
  deriving DecidableEq, Repr

/-- The struct type `deleteFormula` of the source (capitalised here, the
method of the same name keeps the name). -/
structure DeleteFormula where
  Workspace : Workspace
  Formula : List String
  deriving DecidableEq, Repr

/-- The struct type `deleteFormulaStdin`: the decoded batch payload. -/
structure deleteFormulaStdin where
  WorkspacePath : String
  Formula : String
  deriving DecidableEq, Repr

/-- A call to a collaborator that the tree regeneration makes. -/
inductive Call where
  | Generate (path : Path)
  | Write (path : Path)
  deriving DecidableEq, Repr

/-- The disk together with the record of regeneration calls made so far. -/
structure World where
  fs : FS
  calls : List Call
  deriving DecidableEq, Repr

/-- Go `fileManager.Write(path, content)` on the disk: the file is created or
replaced. -/
def writeFile (fs : FS) (path : Path) (content : String) : FS :=
  restrict (fun q => q != path) fs ++ [(path, Node.file content)]

/-- The struct `deleteFormulaCmd`: the collaborators of the delete command.
`workspaceList` is what `workspace.List()` returns, `directoryExists` is
`directory.Exists`, `treeGenGenerate` is `treeGen.Generate` followed by the
marshalling of its tree, `LocalName` is `repoutil.LocalName`, `fold` the case
folding of `strings.EqualFold`, and `missingFlagText` the helper of that name,
none of which is among the sources. -/
structure deleteFormulaCmd where
  ritchieHomeDir : String
  workspaceList : Except Err (List (String × String))
  directoryExists : FS → Path → Bool
  treeGenGenerate : FS → Path → Except Err String
  sys : Faults
  LocalName : String → String
  fold : Char → Char
  missingFlagText : String → String

/-- The loop of `resolveFlags` over the registry: starting from the zero
workspace, every entry whose name equals `workspace` under case folding
replaces the workspace found so far. -/
def findWorkspace (fold : Char → Char) (workspaces : List (String × String))
    (workspace : String) : Workspace :=
  workspaces.foldl
    (fun acc entry => if EqualFold fold entry.1 workspace then ⟨entry.1, entry.2⟩ else acc)
    ⟨"", ""⟩

/-- Source: `deleteFormulaCmd.resolveFlags`; `flags` is `cmd.Flags().GetString`. -/
def deleteFormulaCmd.resolveFlags (d : deleteFormulaCmd) (flags : String → Except Err String) :
    Except Err DeleteFormula :=
  match flags workspaceFlagName with
  | .error e => .error e
  | .ok workspace =>
    if workspace = "" then .error (Err.msg (d.missingFlagText workspaceFlagName))
    else
      match flags formulaFlagName with
      | .error e => .error e
      | .ok formulaGroup =>
        if formulaGroup = "" then .error (Err.msg (d.missingFlagText formulaFlagName))
        else
          match d.workspaceList with
          | .error e => .error e
          | .ok workspaces =>
            let wspace : Workspace := findWorkspace d.fold workspaces workspace
            if wspace.Name = "" then .error (Err.msg "no workspace found with this name")
            else
              match getGroupsFromFormulaName formulaGroup with
              | .error e => .error e
              | .ok groups => .ok ⟨wspace, groups⟩

/-- Source: `deleteFormulaCmd.resolveInput`; `isFlagInput` is `IsFlagInput(cmd)`
and `prompted` is what `resolvePrompt` returns. -/
def deleteFormulaCmd.resolveInput (d : deleteFormulaCmd) (isFlagInput : Bool)
    (flags : String → Except Err String) (prompted : Except Err DeleteFormula) :
    Except Err DeleteFormula :=
  if isFlagInput then d.resolveFlags flags else prompted

/-- Source: `deleteFormulaCmd.formulaExistsInWorkspace`. -/
def deleteFormulaCmd.formulaExistsInWorkspace (d : deleteFormulaCmd) (fs : FS) (path : Path)
    (groups : List String) : Bool :=
  d.directoryExists fs (JoinAll path groups)

/-- Source: `deleteFormulaCmd.recreateTreeJSON`. -/
def deleteFormulaCmd.recreateTreeJSON (d : deleteFormulaCmd) (ritchieLocalWorkspace : Path)
    (w : World) : Option Err × World :=
  let w1 : World := ⟨w.fs, w.calls ++ [Call.Generate ritchieLocalWorkspace]⟩
  match d.treeGenGenerate w.fs ritchieLocalWorkspace with
  | .error e => (some e, w1)
  | .ok jsonString =>
    let pathLocalTreeJSON := Join ritchieLocalWorkspace "tree.json"
    let w2 : World := ⟨w1.fs, w1.calls ++ [Call.Write pathLocalTreeJSON]⟩
    match d.sys.write w2.fs pathLocalTreeJSON with
    | some e => (some e, w2)
    | none => (none, ⟨writeFile w2.fs pathLocalTreeJSON jsonString, w2.calls⟩)

/-- The part of `runCmd` and `runStdin` after the delete on the user
workspace: the delete on the local copy and the regeneration of its tree. -/
def deleteFormulaCmd.deleteLocalCopy (d : deleteFormulaCmd) (wspaceName : String)
    (groups : List String) (w : World) : Option Err × World :=
  let ritchieLocalWorkspace := Join (Join (toPath d.ritchieHomeDir) "repos") wspaceName
  if d.formulaExistsInWorkspace w.fs ritchieLocalWorkspace groups then
    match deleteFormula d.sys ritchieLocalWorkspace groups 0 w.fs with
    | (some e, fs2) => (some e, ⟨fs2, w.calls⟩)
    | (none, fs2) => d.recreateTreeJSON ritchieLocalWorkspace ⟨fs2, w.calls⟩
  else (none, w)

/-- Source: `deleteFormulaCmd.runCmd`; `resolved` is what `d.resolveInput(cmd)`
returns. -/
def deleteFormulaCmd.runCmd (d : deleteFormulaCmd) (resolved : Except Err DeleteFormula)
    (w : World) : Option Err × World :=
  match resolved with
  | .error e => (some e, w)
  | .ok deleteFormulaArg =>
    let wspaceName := d.LocalName deleteFormulaArg.Workspace.Name
    let wspacePath := deleteFormulaArg.Workspace.Dir
    let groups := deleteFormulaArg.Formula
    if groups.length = 0 then (none, w)
    else
      match deleteFormula d.sys (toPath wspacePath) groups 0 w.fs with
      | (some e, fs1) => (some e, ⟨fs1, w.calls⟩)
      | (none, fs1) => d.deleteLocalCopy wspaceName groups ⟨fs1, w.calls⟩

/-- Source: `deleteFormulaCmd.runStdin`; `decoded` is what `stdin.ReadJson`
decodes from the input stream. -/
def deleteFormulaCmd.runStdin (d : deleteFormulaCmd) (decoded : Except Err deleteFormulaStdin)
    (w : World) : Option Err × World :=
  match decoded with
  | .error e => (some e, w)
  | .ok deleteStdin =>
    match getGroupsFromFormulaName deleteStdin.Formula with
    | .error e => (some e, w)
    | .ok groups =>
      match deleteFormula d.sys (toPath deleteStdin.WorkspacePath) groups 0 w.fs with
      | (some e, fs1) => (some e, ⟨fs1, w.calls⟩)
      | (none, fs1) =>
        match d.workspaceList with
        | .error e => (some e, ⟨fs1, w.calls⟩)
        | .ok workspaces =>
          let wspace : String := workspaces.foldl
            (fun acc entry =>
              if EqualFold d.fold entry.2 deleteStdin.WorkspacePath then entry.1 else acc)
            ""
          d.deleteLocalCopy (d.LocalName wspace) groups ⟨fs1, w.calls⟩

/-! ## The rename command -/

/-- The format `ErrFormula` applied to a formula and a workspace directory
(`fmt.Errorf(ErrFormula, formula, dir)`). -/
def ErrFormula (formula dir : String) : String :=
  "This formula '" ++ formula ++ "' dont's exists on this workspace = '" ++ dir ++ "'"

/-- The format `flagError` of the rename command applied to a flag name. -/
def flagError (flag : String) : String :=
  "please provide a value for '" ++ flag ++ "'"

/-- The struct `resultRenameInput`. -/
structure resultRenameInput where
  workspace : Workspace
  oldFormula : String
  newFormula : String
  err : Option Err
  deriving DecidableEq, Repr

/-- The struct `renameFormulaCmd`: the collaborators of the rename command that
flag resolution uses. `defaultWorkspaceName` is `formula.DefaultWorkspaceName`
and `defaultWorkspaceDir` is
`filepath.Join(r.userHomeDir, formula.DefaultWorkspaceDir)`; the two constants
are not among the sources. -/
structure renameFormulaCmd where
  directoryExists : FS → Path → Bool
  defaultWorkspaceName : String
  defaultWorkspaceDir : String

/-- Go map assignment `m[k] = v` on a map kept as a list of bindings. -/
def mapSet (m : List (String × String)) (k v : String) : List (String × String) :=
  (k, v) :: m.filter (fun e => e.1 != k)

/-- Go map lookup `m[k]`. -/
def mapGet (m : List (String × String)) (k : String) : Option String :=
  (m.find? (fun e => e.1 == k)).map (fun e => e.2)

/-- Source: `renameFormulaCmd.formulaExistsInWorkspace`. -/
def renameFormulaCmd.formulaExistsInWorkspace (r : renameFormulaCmd) (fs : FS) (path : Path)
    (formula : String) : Bool :=
  r.directoryExists fs (JoinAll path (cleanFormula formula))

/-- Source: `renameFormulaCmd.resolveFlags`. -/
def renameFormulaCmd.resolveFlags (r : renameFormulaCmd) (fs : FS)
    (flags : String → Except Err String) (workspaces : List (String × String)) :
    resultRenameInput :=
  let result : resultRenameInput := ⟨⟨"", ""⟩, "", "", none⟩
  match flags workspaceFlagName with
  | .error e => { result with err := some e }
  | .ok workspaceName =>
    if workspaceName = "" then { result with err := some (Err.msg (flagError workspaceFlagName)) }
    else
      let workspaces := mapSet workspaces r.defaultWorkspaceName r.defaultWorkspaceDir
      match mapGet workspaces workspaceName with
      | none => { result with err := some Err.ErrInvalidWorkspace }
      | some dir =>
        let result := { result with workspace := ⟨workspaceName, dir⟩ }
        match flags oldFormulaFlagName with
        | .error e => { result with err := some e }
        | .ok oldFormula =>
          if oldFormula = "" then
            { result with err := some (Err.msg (flagError oldFormulaFlagName)) }
          else if !r.formulaExistsInWorkspace fs (toPath result.workspace.Dir) oldFormula then
            { result with err := some (Err.msg (ErrFormula oldFormula result.workspace.Dir)) }
          else
            let result := { result with oldFormula := oldFormula }
            match flags newFormulaFlagName with
            | .error e => { result with err := some e }
            | .ok newFormula =>
              if newFormula = "" then
                { result with err := some (Err.msg (flagError newFormulaFlagName)) }
              else if !r.formulaExistsInWorkspace fs (toPath result.workspace.Dir) newFormula then
                { result with err := some (Err.msg (ErrFormula newFormula result.workspace.Dir)) }
              else { result with newFormula := newFormula }

/-! ## Walking the workspace by prompts -/

def foundFormulaQuestion : String := "we found a formula, which one do you want to delete: "
def foundFormulaRenamedQuestion : String :=
  "we found a formula, which one do you want to rename: "
def questionSelectFormulaGroup : String := "Select a formula or group: "

/-- A Go slice of strings that begins at the start of its backing array:
the array and the length of the slice. Slices made from one another share
the array, so a write through one is seen through the others. -/
structure StrSlice where
  array : List String
  len : Nat
  deriving DecidableEq, Repr

/-- The elements of a slice. -/
def StrSlice.elems (ss : StrSlice) : List String := ss.array.take ss.len

/-- A freshly made slice holding the given elements. -/
def StrSlice.ofList (l : List String) : StrSlice := ⟨l, l.length⟩

/-- Source: `removeFromArray`. At the first `i` with `ss[i] == r` it returns
`append(ss[:i], ss[i+1:]...)`. The result fits the capacity of `ss[:i]`, so
`append` writes into the array of `ss`: the elements after `i` move one place
down, the last place of `ss` keeps its value, and the returned slice is one
shorter. Without such an `i` it returns `ss`. -/
def removeFromArray (ss : StrSlice) (r : String) : StrSlice :=
  if r ∈ ss.elems then
    ⟨ss.elems.erase r ++ ss.array.drop (ss.elems.length - 1), ss.elems.length - 1⟩
  else ss

/-- Source: `isFormula`. -/
def isFormula (dirs : StrSlice) : Bool :=
  dirs.elems.any (fun dir => dir == srcDir)

/-- Source: `hasFormulaInDir`: its answer, and the array of the caller's
slice after the call (the parameter shares it). -/
def hasFormulaInDir (dirs : StrSlice) : Bool × List String :=
  let dirs1 := removeFromArray dirs docsDir
  let dirs2 := removeFromArray dirs1 srcDir
  (decide (dirs2.elems.length > 0), dirs2.array)

/-- The prompt `inList`: the answers still to come, one per call, and the
calls made so far, each with its question and options. -/
structure Prompts where
  answers : List (Except Err String)
  asked : List (String × List String)
  deriving DecidableEq, Repr

/-- Go `inList.List(question, options)`: the next answer; a prompt with no
answer left fails. -/
def inListList (p : Prompts) (question : String) (options : List String) :
    Except Err String × Prompts :=
  match p.answers with
  | [] => (.error (Err.msg "EOF"), ⟨[], p.asked ++ [(question, options)]⟩)
  | a :: rest => (a, ⟨rest, p.asked ++ [(question, options)]⟩)

/-- The end of `readFormulas`, from the prompt for a formula or group on;
`recurse` is the recursive call. -/
def selectAndDescend
    (recurse : Path → String → Prompts → Option (Except Err (List String) × Prompts))
    (dir : Path) (currentFormula : String) (dirs : StrSlice) (p : Prompts) :
    Option (Except Err (List String) × Prompts) :=
  match inListList p questionSelectFormulaGroup dirs.elems with
  | (.error e, p1) => some (.error e, p1)
  | (.ok selected, p1) =>
    let newFormulaSelected := currentFormula ++ " " ++ selected
    match recurse (Join dir selected) newFormulaSelected p1 with
    | none => none
    | some (.error e, p2) => some (.error e, p2)
    | some (.ok aux, p2) => some (.ok (selected :: aux), p2)

/-- Source: `deleteFormulaCmd.readFormulas` and `renameFormulaCmd.readFormulas`,
which differ in the question `found` only. `directoryList` is
`directory.List`, a collaborator; the first argument bounds the depth of the
recursion, and `none` is returned when it is used up. A `nil` result is the
empty list. -/
def readFormulasFuel (directoryList : Path → Bool → Except Err (List String)) (found : String) :
    Nat → Path → String → Prompts → Option (Except Err (List String) × Prompts)
  | 0, _, _, _ => none
  | fuel + 1, dir, currentFormula, p =>
    match directoryList dir false with
    | .error e => some (.error e, p)
    | .ok listing =>
      let dirs := removeFromArray (StrSlice.ofList listing) docsDir
      if isFormula dirs then
        let has := hasFormulaInDir dirs
        if !has.1 then some (.ok [], p)
        else
          let dirs : StrSlice := ⟨has.2, dirs.len⟩
          let formulaOptions := [currentFormula, optionOtherFormula]
          match inListList p found formulaOptions with
          | (.error e, p1) => some (.error e, p1)
          | (.ok response, p1) =>
            if response = currentFormula then some (.ok [], p1)
            else
              let dirs := removeFromArray dirs srcDir
              selectAndDescend (readFormulasFuel directoryList found fuel) dir currentFormula
                dirs p1
      else
        selectAndDescend (readFormulasFuel directoryList found fuel) dir currentFormula dirs p

/-- Source: `deleteFormulaCmd.readFormulas`. Every recursive call follows a
prompt, so the number of answers bounds the depth. -/
def deleteFormulaCmd.readFormulas (directoryList : Path → Bool → Except Err (List String))
    (dir : Path) (currentFormula : String) (p : Prompts) :
    Option (Except Err (List String) × Prompts) :=
  readFormulasFuel directoryList foundFormulaQuestion (p.answers.length + 1) dir currentFormula p

/-- Source: `renameFormulaCmd.readFormulas`. -/
def renameFormulaCmd.readFormulas (directoryList : Path → Bool → Except Err (List String))
    (dir : Path) (currentFormula : String) (p : Prompts) :
    Option (Except Err (List String) × Prompts) :=
  readFormulasFuel directoryList foundFormulaRenamedQuestion (p.answers.length + 1) dir
    currentFormula p

/-- A prompt of the reference walk, with the options it offers: the binary
choice between the current formula and another one, or the choice of a
subdirectory. -/
inductive Offer where
  | choice (options : List String)
  | select (options : List String)
  deriving DecidableEq, Repr

/-- What a reference walk gives: the result, the answers not used and the
prompts made, in order. -/
abbrev Walk := Except Err (List String) × List (Except Err String) × List Offer

/-- The walk after one more prompt in front of it. -/
def addOffer (o : Offer) (w : Walk) : Walk := (w.1, w.2.1, o :: w.2.2)

/-- The reference walk, in the words of the specification: list the directory
without `docs`; when it contains `src` and nothing else, stop with no segment
and no prompt; when it contains `src` and something else, offer the choice
between the current formula label and `Another formula`, and stop with no
segment when the current formula is chosen; otherwise ask for one of the
remaining subdirectories (the entries without `src`), walk into it and put the
chosen segment in front of what that walk returns. A failing listing or
prompt is the result, with no segments. -/
def readFormulasRef (directoryList : Path → Bool → Except Err (List String)) :
    List (Except Err String) → Path → String → Walk
  | answers, dir, currentFormula =>
    match directoryList dir false with
    | .error e => (.error e, answers, [])
    | .ok listing =>
      let entries := listing.filter (fun n => n ≠ "docs")
      if "src" ∈ entries then
        if entries.all (fun n => n = "src") then (.ok [], answers, [])
        else
          match answers with
          | [] => (.error (Err.msg "EOF"), [],
              [Offer.choice [currentFormula, "Another formula"]])
          | .error e :: rest => (.error e, rest,
              [Offer.choice [currentFormula, "Another formula"]])
          | .ok response :: rest =>
            if response = currentFormula then
              (.ok [], rest, [Offer.choice [currentFormula, "Another formula"]])
            else
              match rest with
              | [] => (.error (Err.msg "EOF"), [],
                  [Offer.choice [currentFormula, "Another formula"],
                    Offer.select (entries.filter (fun n => n ≠ "src"))])
              | .error e :: rest1 => (.error e, rest1,
                  [Offer.choice [currentFormula, "Another formula"],
                    Offer.select (entries.filter (fun n => n ≠ "src"))])
              | .ok selected :: rest1 =>
                match readFormulasRef directoryList rest1 (Join dir selected)
                    (currentFormula ++ " " ++ selected) with
                | (.error e, left, offers) => (.error e, left,
                    Offer.choice [currentFormula, "Another formula"] ::
                      Offer.select (entries.filter (fun n => n ≠ "src")) :: offers)
                | (.ok aux, left, offers) => (.ok (selected :: aux), left,
                    Offer.choice [currentFormula, "Another formula"] ::
                      Offer.select (entries.filter (fun n => n ≠ "src")) :: offers)
      else
        match answers with
        | [] => (.error (Err.msg "EOF"), [], [Offer.select entries])
        | .error e :: rest => (.error e, rest, [Offer.select entries])
        | .ok selected :: rest =>
          match readFormulasRef directoryList rest (Join dir selected)
              (currentFormula ++ " " ++ selected) with
          | (.error e, left, offers) => (.error e, left, Offer.select entries :: offers)
          | (.ok aux, left, offers) =>
            (.ok (selected :: aux), left, Offer.select entries :: offers)

/-- The last step of the reference walk: the choice of a subdirectory among
`options`, and the walk into it. -/
def selectRef (directoryList : Path → Bool → Except Err (List String))
    (options : List String) (answers : List (Except Err String)) (dir : Path)
    (currentFormula : String) : Walk :=
  match answers with
  | [] => (.error (Err.msg "EOF"), [], [Offer.select options])
  | .error e :: rest => (.error e, rest, [Offer.select options])
  | .ok selected :: rest =>
    match readFormulasRef directoryList rest (Join dir selected)
        (currentFormula ++ " " ++ selected) with
    | (.error e, left, offers) => (.error e, left, Offer.select options :: offers)
    | (.ok aux, left, offers) => (.ok (selected :: aux), left, Offer.select options :: offers)

/-- A call of the prompt `inList` made by `readFormulas`, with its question and
options, carries out a prompt of the reference walk: the binary choice is put
with the question `found` and exactly its two options; the choice of a
subdirectory is put with its question and the options of the reference, after
which the last of them may stand once more. -/
def Offered (found : String) (asked : String × List String) : Offer → Prop
  | .choice options => asked = (found, options)
  | .select options =>
    asked.1 = questionSelectFormulaGroup ∧
      (asked.2 = options ∨ ∃ x, options.getLast? = some x ∧ asked.2 = options ++ [x])

/-- The disk `fs'` is `fs` with some paths removed, and every existing path
that was removed satisfies `A`. -/
def Confined (A : Path → Prop) (fs fs' : FS) : Prop :=
  ∃ k : Path → Bool, fs' = restrict k fs ∧ ∀ q, k q = false → stat fs q ≠ none → A q

/-- The paths that the loop of `safeRemoveFormula` is asked to remove, for a
listing `files` of `path`: everything at or beneath a directory entry named
`src` or `bin`, and every entry that is not a directory. -/
def safeRemoved (path : Path) (files : List FileInfo) (q : Path) : Prop :=
  ∃ f ∈ files,
    (f.IsDir = true ∧ (f.Name = "src" ∨ f.Name = "bin") ∧ under (Join path f.Name) q = true) ∨
    (f.IsDir = false ∧ q = Join path f.Name)

/-- The steps of `deleteFormula(root, S, 0)` on the disk `fs` that can fail,
each with the error it returns and the disk at that moment: reading the leaf,
removing the leaf (whole, or safely when it is nested), and, at a level
`1 ≤ i < len(S)` once the deeper levels have succeeded, reading the directory
`root/S[:i]` or removing it when it has no subdirectory. -/
inductive StepFails (sys : Faults) (root : Path) (S : List String) (fs : FS) :
    Err → FS → Prop where
  | leafRead (e : Err) :
      nestedFormula sys fs (JoinAll root S) = .error e → StepFails sys root S fs e fs
  | leafRemove (e : Err) (fs1 : FS) :
      nestedFormula sys fs (JoinAll root S) = .ok false →
      RemoveAll sys (JoinAll root S) fs = (some e, fs1) → StepFails sys root S fs e fs1
  | leafSafeRemove (e : Err) (fs1 : FS) :
      nestedFormula sys fs (JoinAll root S) = .ok true →
      safeRemoveFormula sys (JoinAll root S) fs = (some e, fs1) →
      StepFails sys root S fs e fs1
  | parentRead (i : Nat) (e : Err) (fs1 : FS) :
      1 ≤ i → i < S.length →
      deleteFormula sys (JoinAll root (S.take (i + 1))) S (i + 1) fs = (none, fs1) →
      canDelete sys fs1 (JoinAll root (S.take i)) = .error e →
      StepFails sys root S fs e fs1
  | parentRemove (i : Nat) (e : Err) (fs1 fs2 : FS) :
      1 ≤ i → i < S.length →
      deleteFormula sys (JoinAll root (S.take (i + 1))) S (i + 1) fs = (none, fs1) →
      canDelete sys fs1 (JoinAll root (S.take i)) = .ok true →
      RemoveAll sys (JoinAll root (S.take i)) fs1 = (some e, fs2) →
      StepFails sys root S fs e fs2

/-- Whether a non-directory file exists at `q`. -/
def isFileAt (fs : FS) (q : Path) : Bool :=
  match stat fs q with
  | some (Node.file _) => true
  | _ => false

/-! ## Example disks -/

/-- The disk with `/ws/test/unit/src/main` and nothing else. -/
def diskUnit : FS :=
  [([], .dir), (["ws"], .dir), (["ws", "test"], .dir), (["ws", "test", "unit"], .dir),
   (["ws", "test", "unit", "src"], .dir), (["ws", "test", "unit", "src", "main"], .file "m")]

/-- The disk with `/ws/x/src/main` and nothing else. -/
def diskX : FS :=
  [([], .dir), (["ws"], .dir), (["ws", "x"], .dir), (["ws", "x", "src"], .dir),
   (["ws", "x", "src", "main"], .file "m")]

/-- The disk with `/ws/test/src/main` and `/ws/test/group/src/main`: a nested
formula at `/ws/test`. -/
def diskNested : FS :=
  [([], .dir), (["ws"], .dir), (["ws", "test"], .dir), (["ws", "test", "src"], .dir),
   (["ws", "test", "src", "main"], .file "m"), (["ws", "test", "group"], .dir),
   (["ws", "test", "group", "src"], .dir), (["ws", "test", "group", "src", "main"], .file "g")]

/-- The disk `diskNested` after `/ws/test/src` has been removed. -/
def diskNestedAfter : FS :=
  [([], .dir), (["ws"], .dir), (["ws", "test"], .dir), (["ws", "test", "group"], .dir),
   (["ws", "test", "group", "src"], .dir), (["ws", "test", "group", "src", "main"], .file "g")]

/-- The disk with `/ws/test/src/main` and `/ws/test/docs/README.md`: a nested
formula at `/ws/test` whose other subdirectory holds only a file. -/
def diskDocs : FS :=
  [([], .dir), (["ws"], .dir), (["ws", "test"], .dir), (["ws", "test", "src"], .dir),
   (["ws", "test", "src", "main"], .file "m"), (["ws", "test", "docs"], .dir),
   (["ws", "test", "docs", "README.md"], .file "r")]

/-- The disk with the formula `/ws/test/unit`, the file `/ws/test/notes.txt`
next to it in its group, the file `/ws/keep.txt` and the formula `/ws/other`. -/
def diskSiblings : FS :=
  [([], .dir), (["ws"], .dir), (["ws", "keep.txt"], .file "k"), (["ws", "test"], .dir),
   (["ws", "test", "notes.txt"], .file "n"), (["ws", "test", "unit"], .dir),
   (["ws", "test", "unit", "src"], .dir), (["ws", "test", "unit", "src", "main"], .file "m"),
   (["ws", "other"], .dir), (["ws", "other", "src"], .dir),
   (["ws", "other", "src", "main"], .file "o")]

/-- The disk with the formulas `/ws/test/unit` and `/ws/test/other` and the
file `/ws/test/notes.txt` next to them in their group. -/
def diskGroup : FS :=
  [([], .dir), (["ws"], .dir), (["ws", "test"], .dir),
   (["ws", "test", "notes.txt"], .file "n"), (["ws", "test", "unit"], .dir),
   (["ws", "test", "unit", "src"], .dir), (["ws", "test", "unit", "src", "main"], .file "m"),
   (["ws", "test", "other"], .dir), (["ws", "test", "other", "src"], .dir),
   (["ws", "test", "other", "src", "main"], .file "o")]

/-- The disk `diskGroup` after `/ws/test/unit` has been removed. -/
def diskGroupAfter : FS :=
  [([], .dir), (["ws"], .dir), (["ws", "test"], .dir),
   (["ws", "test", "notes.txt"], .file "n"),
   (["ws", "test", "other"], .dir), (["ws", "test", "other", "src"], .dir),
   (["ws", "test", "other", "src", "main"], .file "o")]

/-- The disk `diskSiblings` after `/ws/test` has been removed. -/
def diskSiblingsAfter : FS :=
  [([], .dir), (["ws"], .dir), (["ws", "keep.txt"], .file "k"),
   (["ws", "other"], .dir), (["ws", "other", "src"], .dir),
   (["ws", "other", "src", "main"], .file "o")]

/-! ## Example commands -/

/-- A delete command over two registered workspaces, with no failing
collaborator; a path exists when something is bound to it. -/
def cmdTeam : deleteFormulaCmd where
  ritchieHomeDir := "/home/u/.rit"
  workspaceList := .ok [("Default", "/home/u/ritchie-formulas-local"), ("Team", "/ws")]
  directoryExists := fun fs p => (stat fs p).isSome
  treeGenGenerate := fun _ _ => .ok "tree"
  sys := noFaults
  LocalName := fun name => "local-" ++ name
  fold := Char.toLower
  missingFlagText := fun name => "please provide a value for '" ++ name ++ "'"

/-- The flag values `--workspace=team --formula="rit test unit"`. -/
def flagsTeam (name : String) : Except Err String :=
  if name = "workspace" then .ok "team"
  else if name = "formula" then .ok "rit test unit"
  else .error (Err.other 0)

/-- A rename command whose default workspace is `Default`. -/
def cmdRename : renameFormulaCmd where
  directoryExists := fun fs p => (stat fs p).isSome
  defaultWorkspaceName := "Default"
  defaultWorkspaceDir := "/home/u/ritchie-formulas-local"

/-- The flag values
`--workspace=Team --old-name-formula="rit test unit" --new-name-formula="rit test other"`. -/
def flagsRename (name : String) : Except Err String :=
  if name = "workspace" then .ok "Team"
  else if name = "old-name-formula" then .ok "rit test unit"
  else if name = "new-name-formula" then .ok "rit test other"
  else .error (Err.other 0)

/-- The flag values
`--workspace=Team --old-name-formula="rit .. home" --new-name-formula="rit .. home u"`. -/
def flagsRenameOutside (name : String) : Except Err String :=
  if name = "workspace" then .ok "Team"
  else if name = "old-name-formula" then .ok "rit .. home"
  else if name = "new-name-formula" then .ok "rit .. home u"
  else .error (Err.other 0)

/-- The disk with the formula `/ws/test/unit` and its copy under the local
repository `/home/u/.rit/repos/local-Team`. -/
def diskMirror : FS :=
  [([], .dir), (["ws"], .dir), (["ws", "test"], .dir), (["ws", "test", "unit"], .dir),
   (["ws", "test", "unit", "src"], .dir), (["ws", "test", "unit", "src", "main"], .file "m"),
   (["home"], .dir), (["home", "u"], .dir), (["home", "u", ".rit"], .dir),
   (["home", "u", ".rit", "repos"], .dir), (["home", "u", ".rit", "repos", "local-Team"], .dir),
   (["home", "u", ".rit", "repos", "local-Team", "test"], .dir),
   (["home", "u", ".rit", "repos", "local-Team", "test", "unit"], .dir),
   (["home", "u", ".rit", "repos", "local-Team", "test", "unit", "src"], .dir),
   (["home", "u", ".rit", "repos", "local-Team", "test", "unit", "src", "main"], .file "m")]

/-- The disk `diskMirror` after the delete of `[test, unit]` below `/ws`. -/
def diskMirrorUser : FS :=
  [([], .dir), (["ws"], .dir),
   (["home"], .dir), (["home", "u"], .dir), (["home", "u", ".rit"], .dir),
   (["home", "u", ".rit", "repos"], .dir), (["home", "u", ".rit", "repos", "local-Team"], .dir),
   (["home", "u", ".rit", "repos", "local-Team", "test"], .dir),
   (["home", "u", ".rit", "repos", "local-Team", "test", "unit"], .dir),
   (["home", "u", ".rit", "repos", "local-Team", "test", "unit", "src"], .dir),
   (["home", "u", ".rit", "repos", "local-Team", "test", "unit", "src", "main"], .file "m")]

/-- The disk `diskMirrorUser` after the same delete below the local copy. -/
def diskMirrorBoth : FS :=
  [([], .dir), (["ws"], .dir),
   (["home"], .dir), (["home", "u"], .dir), (["home", "u", ".rit"], .dir),
   (["home", "u", ".rit", "repos"], .dir), (["home", "u", ".rit", "repos", "local-Team"], .dir)]

/-- The command `cmdTeam` with a tree generator that fails. -/
def cmdTeamNoTree : deleteFormulaCmd :=
  { cmdTeam with treeGenGenerate := fun _ _ => .error (Err.other 1) }

/-- The resolved input: workspace `Team` at `/ws`, formula `rit test unit`. -/
def inputUnit : DeleteFormula := ⟨⟨"Team", "/ws"⟩, ["test", "unit"]⟩

/-- The disk with a workspace `/ws` that holds only a file. -/
def diskBare : FS :=
  [([], .dir), (["ws"], .dir), (["ws", "README.md"], .file "r")]

/-- A workspace `/ws` that is a formula (`src`) and also holds the group
`test`, itself a formula; listings are sorted by name. -/
def listNested (dir : Path) (_hidden : Bool) : Except Err (List String) :=
  if dir = ["ws"] then .ok ["src", "test"]
  else if dir = ["ws", "test"] then .ok ["src"]
  else .error (Err.pathError "open" dir)

end Ritchie

namespace Ritchie

/-! ## Theorems -/

theorem splitChars_ne_nil (sep : Char) (cs : List Char) : splitChars sep cs ≠ [] := by
  cases cs with
  | nil => simp [splitChars]
  | cons c cs =>
    unfold splitChars
    split
    · simp
    · split <;> simp

theorem splitChars_join (sep : Char) (cs : List Char) :
    List.intercalate [sep] (splitChars sep cs) = cs := by
  induction cs with
  | nil => simp [splitChars, List.intercalate]
  | cons c cs ih =>
    unfold splitChars
    split
    · rename_i h
      subst h
      rcases hs : splitChars c cs with _ | ⟨w, ws⟩
      · exact absurd hs (splitChars_ne_nil _ _)
      · rw [hs] at ih
        simp only [List.intercalate, List.intersperse, List.flatten] at ih ⊢
        simp [ih]
    · rcases hs : splitChars sep cs with _ | ⟨w, ws⟩
      · exact absurd hs (splitChars_ne_nil _ _)
      · rw [hs] at ih
        cases ws with
        | nil =>
          simp only [List.intercalate, List.intersperse, List.flatten] at ih ⊢
          simp at ih ⊢
          exact ih
        | cons v vs =>
          simp only [List.intercalate, List.intersperse, List.flatten] at ih ⊢
          simp at ih ⊢
          exact ih

theorem splitChars_no_sep (sep : Char) (cs : List Char) :
    ∀ w ∈ splitChars sep cs, sep ∉ w := by
  induction cs with
  | nil => simp [splitChars]
  | cons c cs ih =>
    unfold splitChars
    split
    · intro w hw
      rcases List.mem_cons.mp hw with h | h
      · simp [h]
      · exact ih w h
    · rename_i hne
      rcases hs : splitChars sep cs with _ | ⟨v, vs⟩
      · intro w hw
        simp at hw
        subst hw
        simp
        exact fun h => hne h.symm
      · rw [hs] at ih
        intro w hw
        rcases List.mem_cons.mp hw with h | h
        · subst h
          have := ih v (List.mem_cons_self _ _)
          simp
          exact ⟨fun h => hne h.symm, this⟩
        · exact ih w (List.mem_cons_of_mem _ h)

/-! ### Paths -/

theorem under_iff (p q : Path) : under p q = true ↔ ∃ r, q = p ++ r := by
  induction p generalizing q with
  | nil => simp [under]
  | cons a p ih =>
    cases q with
    | nil => simp [under]
    | cons b q =>
      simp only [under, Bool.and_eq_true, beq_iff_eq, ih, List.cons_append, List.cons.injEq]
      constructor
      · rintro ⟨rfl, r, rfl⟩
        exact ⟨r, rfl, rfl⟩
      · rintro ⟨r, rfl, rfl⟩
        exact ⟨rfl, r, rfl⟩

theorem under_refl (p : Path) : under p p = true :=
  (under_iff p p).2 ⟨[], by simp⟩

theorem under_append (p r : Path) : under p (p ++ r) = true :=
  (under_iff p _).2 ⟨r, rfl⟩

theorem under_trans {p q r : Path} (h1 : under p q = true) (h2 : under q r = true) :
    under p r = true := by
  obtain ⟨a, rfl⟩ := (under_iff _ _).1 h1
  obtain ⟨b, rfl⟩ := (under_iff _ _).1 h2
  exact (under_iff _ _).2 ⟨a ++ b, by simp⟩

theorem under_of_dropLast {p q : Path} (hq : q ≠ []) (h : under p q.dropLast = true) :
    under p q = true := by
  obtain ⟨r, hr⟩ := (under_iff _ _).1 h
  refine (under_iff _ _).2 ⟨r ++ [q.getLast hq], ?_⟩
  rw [← List.append_assoc, ← hr]
  exact (List.dropLast_append_getLast hq).symm

theorem not_under_snoc (p : Path) (g : String) : under (p ++ [g]) p = false := by
  cases h : under (p ++ [g]) p with
  | false => rfl
  | true =>
    obtain ⟨r, hr⟩ := (under_iff _ _).1 h
    have := congrArg List.length hr
    simp at this

theorem splitChars_of_not_mem (sep : Char) (cs : List Char) (h : sep ∉ cs) :
    splitChars sep cs = [cs] := by
  induction cs with
  | nil => rfl
  | cons c cs ih =>
    have hc : ¬ c = sep := fun e => h (by simp [e])
    have ht : sep ∉ cs := fun e => h (List.mem_cons_of_mem _ e)
    simp [splitChars, hc, ih ht]

theorem Join_name (p : Path) (s : String) (h : isName s) : Join p s = p ++ [s] := by
  obtain ⟨h1, h2, h3, h4⟩ := h
  have hs : Split s '/' = [s] := by
    simp [Split, splitChars_of_not_mem _ _ h4]
  simp [Join, hs, cleanStep, h1, h2, h3]

theorem JoinAll_names (p : Path) (S : List String) (h : ∀ s ∈ S, isName s) :
    JoinAll p S = p ++ S := by
  induction S generalizing p with
  | nil => simp [JoinAll]
  | cons g S ih =>
    have hg := h g (List.mem_cons_self _ _)
    have := ih (p ++ [g]) (fun s hs => h s (List.mem_cons_of_mem _ hs))
    simp only [JoinAll, List.foldl_cons] at this ⊢
    rw [Join_name p g hg, this]
    simp

theorem cleanStep_under {r p : Path} (c : String) (hc : c ≠ "..")
    (h : under r p = true) : under r (cleanStep p c) = true := by
  unfold cleanStep
  split
  · exact h
  · exact under_trans h (under_append p [c])

theorem foldl_cleanStep_under {r : Path} (cs : List String) (hcs : ".." ∉ cs) :
    ∀ p : Path, under r p = true → under r (cs.foldl cleanStep p) = true := by
  induction cs with
  | nil => intro p h; exact h
  | cons c cs ih =>
    intro p h
    have hc : c ≠ ".." := fun e => hcs (e ▸ List.mem_cons_self _ _)
    exact ih (fun hm => hcs (List.mem_cons_of_mem _ hm)) _ (cleanStep_under c hc h)

/-- Joining words that hold no `..` element never leaves the directory the
path is under. -/
theorem JoinAll_under {r : Path} (S : List String)
    (hS : ∀ s ∈ S, ".." ∉ Split s '/') :
    ∀ p : Path, under r p = true → under r (JoinAll p S) = true := by
  induction S with
  | nil => intro p h; exact h
  | cons g S ih =>
    intro p h
    have hg := hS g (List.mem_cons_self _ _)
    have := ih (fun s hs => hS s (List.mem_cons_of_mem _ hs)) (Join p g)
      (foldl_cleanStep_under _ hg p h)
    simpa [JoinAll] using this

/-! ### The store -/

theorem stat_restrict (k : Path → Bool) (fs : FS) (q : Path) :
    stat (restrict k fs) q = if k q = true then stat fs q else none := by
  induction fs with
  | nil => simp [stat, restrict]
  | cons e fs ih =>
    simp only [stat, restrict] at ih ⊢
    by_cases he : e.1 = q
    · by_cases hk : k e.1 = true
      · have hq : k q = true := he ▸ hk
        simp [List.filter_cons, hk, hq, List.find?_cons, he]
      · have hq : ¬ k q = true := he ▸ hk
        rw [List.filter_cons, if_neg hk, ih, if_neg hq, if_neg hq]
    · have hb : (e.1 == q) = false := by simpa using he
      by_cases hk : k e.1 = true
      · rw [List.filter_cons, if_pos hk, List.find?_cons, hb, List.find?_cons, hb]
        exact ih
      · rw [List.filter_cons, if_neg hk, List.find?_cons, hb]
        exact ih

theorem mem_of_stat {fs : FS} {p : Path} {n : Node} (h : stat fs p = some n) :
    (p, n) ∈ fs := by
  simp only [stat, Option.map_eq_some'] at h
  obtain ⟨e, he, rfl⟩ := h
  have h1 := List.find?_some he
  have h2 := List.mem_of_find?_eq_some he
  simp at h1
  subst h1
  exact h2

theorem stat_of_mem {fs : FS} (hn : (fs.map (fun e => e.1)).Nodup) {p : Path} {n : Node}
    (h : (p, n) ∈ fs) : stat fs p = some n := by
  induction fs with
  | nil => simp at h
  | cons e fs ih =>
    simp only [List.map_cons, List.nodup_cons] at hn
    rcases List.mem_cons.mp h with h | h
    · subst h
      simp [stat, List.find?_cons]
    · have hne : e.1 ≠ p := by
        intro he
        apply hn.1
        rw [he]
        exact List.mem_map.2 ⟨(p, n), h, rfl⟩
      have hb : (e.1 == p) = false := by simpa using hne
      have := ih hn.2 h
      simp only [stat, List.find?_cons, hb] at this ⊢
      exact this

theorem childInfo_eq_some (p : Path) (e : Path × Node) (f : FileInfo) :
    childInfo p e = some f ↔ e.1 = p ++ [f.Name] ∧ e.2.isDir = f.IsDir := by
  unfold childInfo
  rcases List.eq_nil_or_concat e.1 with h | ⟨l, a, h⟩
  · rw [h]
    simp
  · rw [h, List.concat_eq_append]
    have hd : (l ++ [a]).dropLast = l := by simp
    have hg : (l ++ [a]).getLast? = some a := by simp
    rw [hd, hg]
    by_cases hl : l = p
    · subst hl
      simp only [↓reduceIte, Option.some.injEq, List.append_cancel_left_eq, List.cons.injEq,
        and_true]
      constructor
      · rintro rfl
        exact ⟨rfl, rfl⟩
      · rintro ⟨h1, h2⟩
        cases f
        simp_all
    · simp only [hl, ↓reduceIte]
      constructor
      · intro h2
        cases h2
      · rintro ⟨h2, _⟩
        exact absurd (List.append_inj_left' h2 rfl) hl

theorem mem_listing (fs : FS) (p : Path) (f : FileInfo) :
    f ∈ fs.filterMap (childInfo p) ↔
      ∃ n, (p ++ [f.Name], n) ∈ fs ∧ n.isDir = f.IsDir := by
  simp only [List.mem_filterMap, childInfo_eq_some]
  constructor
  · rintro ⟨⟨q, n⟩, hm, hq, hd⟩
    simp only at hq hd
    subst hq
    exact ⟨n, hm, hd⟩
  · rintro ⟨n, hm, hd⟩
    exact ⟨(p ++ [f.Name], n), hm, rfl, hd⟩

theorem ReadDir_ok {sys : Faults} {fs : FS} {p : Path} {files : List FileInfo}
    (h : ReadDir sys fs p = .ok files) :
    stat fs p = some Node.dir ∧ files = fs.filterMap (childInfo p) := by
  unfold ReadDir at h
  split at h
  · split at h
    · cases h
    · rename_i hs _ _
      simp only [Except.ok.injEq] at h
      exact ⟨hs, h.symm⟩
  · cases h

theorem restrict_restrict (k1 k2 : Path → Bool) (fs : FS) :
    restrict k2 (restrict k1 fs) = restrict (fun q => k1 q && k2 q) fs := by
  simp [restrict, List.filter_filter, Bool.and_comm]

theorem restrict_true (fs : FS) : restrict (fun _ => true) fs = fs := by
  simp [restrict]

theorem mem_restrict {k : Path → Bool} {fs : FS} {e : Path × Node} :
    e ∈ restrict k fs ↔ e ∈ fs ∧ k e.1 = true := by
  simp [restrict]

theorem WF_restrict {fs : FS} (k : Path → Bool) (h : WF fs)
    (hk : ∀ e ∈ fs, e.1 ≠ [] → k e.1 = true → k e.1.dropLast = true) :
    WF (restrict k fs) := by
  obtain ⟨h1, h2, h3⟩ := h
  refine ⟨?_, ?_, ?_⟩
  · exact h1.sublist ((List.filter_sublist fs).map _)
  · intro e he
    exact h2 e (mem_restrict.1 he).1
  · intro e he hne
    obtain ⟨hm, hke⟩ := mem_restrict.1 he
    rw [stat_restrict, if_pos (hk e hm hne hke)]
    exact h3 e hm hne

theorem Confined.refl (A : Path → Prop) (fs : FS) : Confined A fs fs :=
  ⟨fun _ => true, (restrict_true fs).symm, fun _ h => by simp at h⟩

theorem Confined.stat_cases {A : Path → Prop} {fs fs' : FS} (h : Confined A fs fs')
    (q : Path) : stat fs' q = stat fs q ∨ (stat fs' q = none ∧ (stat fs q ≠ none → A q)) := by
  obtain ⟨k, rfl, hk⟩ := h
  rw [stat_restrict]
  cases hq : k q with
  | true => simp
  | false => exact Or.inr ⟨by simp, hk q hq⟩

theorem Confined.stat_eq {A : Path → Prop} {fs fs' : FS} (h : Confined A fs fs')
    {q : Path} (hq : ¬ A q) : stat fs' q = stat fs q := by
  rcases h.stat_cases q with h1 | ⟨h1, h2⟩
  · exact h1
  · rw [h1]
    by_contra hne
    exact hq (h2 (fun e => hne e.symm))

theorem Confined.stat_some {A : Path → Prop} {fs fs' : FS} (h : Confined A fs fs')
    {q : Path} {n : Node} (hq : stat fs' q = some n) : stat fs q = some n := by
  rcases h.stat_cases q with h1 | ⟨h1, _⟩
  · rw [← h1]; exact hq
  · rw [h1] at hq; cases hq

theorem Confined.stat_none {A : Path → Prop} {fs fs' : FS} (h : Confined A fs fs')
    {q : Path} (hq : stat fs q = none) : stat fs' q = none := by
  rcases h.stat_cases q with h1 | ⟨h1, _⟩
  · rw [h1]; exact hq
  · exact h1

theorem Confined.mono {A B : Path → Prop} {fs fs' : FS} (h : Confined A fs fs')
    (hAB : ∀ q, stat fs q ≠ none → A q → B q) : Confined B fs fs' := by
  obtain ⟨k, hk1, hk2⟩ := h
  exact ⟨k, hk1, fun q hq hs => hAB q hs (hk2 q hq hs)⟩

theorem Confined.trans {A B : Path → Prop} {fs fs1 fs2 : FS} (h1 : Confined A fs fs1)
    (h2 : Confined B fs1 fs2) : Confined (fun q => A q ∨ B q) fs fs2 := by
  obtain ⟨k1, rfl, hk1⟩ := h1
  obtain ⟨k2, rfl, hk2⟩ := h2
  refine ⟨fun q => k1 q && k2 q, restrict_restrict k1 k2 fs, ?_⟩
  intro q hq hs
  cases h : k1 q with
  | false => exact Or.inl (hk1 q h hs)
  | true =>
    have h2 : k2 q = false := by simpa [h] using hq
    refine Or.inr (hk2 q h2 ?_)
    rw [stat_restrict, if_pos h]
    exact hs

/-! ### The system calls -/

theorem RemoveAll_cases (sys : Faults) (p : Path) (fs : FS) :
    (∃ e, RemoveAll sys p fs = (some e, fs)) ∨
      RemoveAll sys p fs = (none, restrict (fun q => !under p q) fs) := by
  unfold RemoveAll
  cases sys.removeAll fs p with
  | none => exact Or.inr rfl
  | some e => exact Or.inl ⟨e, rfl⟩

theorem WF_removeAll {fs : FS} (p : Path) (h : WF fs) :
    WF (restrict (fun q => !under p q) fs) := by
  apply WF_restrict _ h
  intro e _ hne hk
  cases hu : under p e.1.dropLast with
  | false => rfl
  | true =>
    have := under_of_dropLast hne hu
    simp [this] at hk

theorem Confined_removeAll (p : Path) (fs : FS) :
    Confined (fun q => under p q = true) fs (restrict (fun q => !under p q) fs) :=
  ⟨_, rfl, fun q hq _ => by simpa using hq⟩

theorem stat_removeAll (p : Path) (fs : FS) {q : Path} (hq : under p q = true) :
    stat (restrict (fun q => !under p q) fs) q = none := by
  rw [stat_restrict]
  simp [hq]

theorem WF_RemoveAll {sys : Faults} {p : Path} {fs fs' : FS} {r : Option Err} (h : WF fs)
    (hr : RemoveAll sys p fs = (r, fs')) : WF fs' := by
  rcases RemoveAll_cases sys p fs with ⟨e, he⟩ | he
  · rw [he] at hr
    cases hr
    exact h
  · rw [he] at hr
    cases hr
    exact WF_removeAll p h

theorem Confined_RemoveAll {sys : Faults} {p : Path} {fs fs' : FS} {r : Option Err}
    (hr : RemoveAll sys p fs = (r, fs')) : Confined (fun q => under p q = true) fs fs' := by
  rcases RemoveAll_cases sys p fs with ⟨e, he⟩ | he
  · rw [he] at hr
    cases hr
    exact Confined.refl _ _
  · rw [he] at hr
    cases hr
    exact Confined_removeAll p fs

theorem RemoveAll_gone {sys : Faults} {p : Path} {fs fs' : FS}
    (hr : RemoveAll sys p fs = (none, fs')) {q : Path} (hq : under p q = true) :
    stat fs' q = none := by
  rcases RemoveAll_cases sys p fs with ⟨e, he⟩ | he
  · rw [he] at hr
    cases hr
  · rw [he] at hr
    cases hr
    exact stat_removeAll p fs hq

theorem RemoveAll_err {sys : Faults} {p : Path} {fs fs' : FS} {e : Err}
    (hr : RemoveAll sys p fs = (some e, fs')) : fs' = fs := by
  rcases RemoveAll_cases sys p fs with ⟨e, he⟩ | he
  · rw [he] at hr
    cases hr
    rfl
  · rw [he] at hr
    cases hr

theorem WF_parent {fs : FS} (h : WF fs) {p : Path} {a : String} {n : Node}
    (hs : stat fs (p ++ [a]) = some n) : stat fs p = some Node.dir := by
  have := h.2.2 _ (mem_of_stat hs) (by simp)
  simpa using this

theorem WF_ancestor {fs : FS} (h : WF fs) (p r : Path) (hr : r ≠ [])
    (hs : stat fs (p ++ r) ≠ none) : stat fs p = some Node.dir := by
  induction r using List.reverseRecOn with
  | nil => exact absurd rfl hr
  | append_singleton r a ih =>
    obtain ⟨n, hn⟩ := Option.ne_none_iff_exists'.1 hs
    rw [← List.append_assoc] at hn
    have hp := WF_parent h hn
    by_cases hr' : r = []
    · subst hr'
      simpa using hp
    · exact ih hr' (by rw [hp]; simp)

theorem WF_child_name {fs : FS} (h : WF fs) {p : Path} {a : String} {n : Node}
    (hm : (p ++ [a], n) ∈ fs) : isName a :=
  h.2.1 _ hm a (by simp)

theorem Remove_cases (sys : Faults) (p : Path) (fs : FS) :
    (∃ e, Remove sys p fs = (some e, fs)) ∨
    (Remove sys p fs = (none, fs) ∧ stat fs p = none) ∨
    (Remove sys p fs = (none, restrict (fun q => q != p) fs) ∧
      ((∃ c, stat fs p = some (Node.file c)) ∨ fs.filterMap (childInfo p) = [])) := by
  unfold Remove
  cases sys.remove fs p with
  | some e => exact Or.inl ⟨e, rfl⟩
  | none =>
    cases hs : stat fs p with
    | none => exact Or.inr (Or.inl ⟨rfl, rfl⟩)
    | some n =>
      cases n with
      | file c => exact Or.inr (Or.inr ⟨rfl, Or.inl ⟨c, rfl⟩⟩)
      | dir =>
        by_cases he : (fs.filterMap (childInfo p)).isEmpty = true
        · rw [if_pos he]
          exact Or.inr (Or.inr ⟨rfl, Or.inr (List.isEmpty_iff.1 he)⟩)
        · rw [if_neg he]
          exact Or.inl ⟨_, rfl⟩

theorem WF_remove_one {fs : FS} (p : Path) (h : WF fs)
    (hp : (∃ c, stat fs p = some (Node.file c)) ∨ fs.filterMap (childInfo p) = []) :
    WF (restrict (fun q => q != p) fs) := by
  apply WF_restrict _ h
  intro e he hne _
  simp only [bne_iff_ne, ne_eq]
  intro hd
  have hm : (p ++ [e.1.getLast hne], e.2) ∈ fs := by
    rw [← hd, List.dropLast_append_getLast hne]
    exact he
  rcases hp with ⟨c, hc⟩ | hp
  · have := WF_parent h (stat_of_mem h.1 hm)
    rw [hc] at this
    cases this
  · have : (⟨e.1.getLast hne, e.2.isDir⟩ : FileInfo) ∈ fs.filterMap (childInfo p) :=
      (mem_listing fs p _).2 ⟨e.2, hm, rfl⟩
    rw [hp] at this
    cases this

theorem WF_Remove {sys : Faults} {p : Path} {fs fs' : FS} {r : Option Err} (h : WF fs)
    (hr : Remove sys p fs = (r, fs')) : WF fs' := by
  rcases Remove_cases sys p fs with ⟨e, he⟩ | ⟨he, _⟩ | ⟨he, hp⟩
  · rw [he] at hr; cases hr; exact h
  · rw [he] at hr; cases hr; exact h
  · rw [he] at hr; cases hr; exact WF_remove_one p h hp

theorem Confined_Remove {sys : Faults} {p : Path} {fs fs' : FS} {r : Option Err}
    (hr : Remove sys p fs = (r, fs')) : Confined (fun q => q = p) fs fs' := by
  rcases Remove_cases sys p fs with ⟨e, he⟩ | ⟨he, _⟩ | ⟨he, _⟩
  · rw [he] at hr; cases hr; exact Confined.refl _ _
  · rw [he] at hr; cases hr; exact Confined.refl _ _
  · rw [he] at hr; cases hr
    exact ⟨_, rfl, fun q hq _ => by simpa using hq⟩

theorem Remove_gone {sys : Faults} {p : Path} {fs fs' : FS}
    (hr : Remove sys p fs = (none, fs')) : stat fs' p = none := by
  rcases Remove_cases sys p fs with ⟨e, he⟩ | ⟨he, hs⟩ | ⟨he, _⟩
  · rw [he] at hr; cases hr
  · rw [he] at hr; cases hr; exact hs
  · rw [he] at hr; cases hr
    rw [stat_restrict]
    simp

/-! ### Directory listings -/

theorem listing_dir_iff {fs : FS} (h : WF fs) (p : Path) :
    (∀ f ∈ fs.filterMap (childInfo p), f.IsDir = false) ↔
      ∀ n, stat fs (p ++ [n]) ≠ some Node.dir := by
  constructor
  · intro hall n hn
    have := hall ⟨n, true⟩ ((mem_listing fs p _).2 ⟨Node.dir, mem_of_stat hn, rfl⟩)
    cases this
  · intro hall f hf
    obtain ⟨n, hm, hd⟩ := (mem_listing fs p f).1 hf
    cases n with
    | file c => rw [← hd]; rfl
    | dir => exact absurd (stat_of_mem h.1 hm) (hall _)

theorem canDelete_ok {sys : Faults} {fs : FS} {p : Path} {b : Bool}
    (h : canDelete sys fs p = .ok b) :
    stat fs p = some Node.dir ∧
      (b = true ↔ ∀ f ∈ fs.filterMap (childInfo p), f.IsDir = false) := by
  unfold canDelete at h
  cases hr : ReadDir sys fs p with
  | error e => rw [hr] at h; cases h
  | ok files =>
    rw [hr] at h
    obtain ⟨hs, rfl⟩ := ReadDir_ok hr
    simp only [Except.ok.injEq] at h
    refine ⟨hs, ?_⟩
    rw [← h]
    generalize fs.filterMap (childInfo p) = files
    simp

theorem canDelete_true_iff {sys : Faults} {fs : FS} {p : Path} {b : Bool} (hwf : WF fs)
    (h : canDelete sys fs p = .ok b) :
    b = true ↔ ∀ n, stat fs (p ++ [n]) ≠ some Node.dir := by
  rw [(canDelete_ok h).2, listing_dir_iff hwf]

theorem nestedFormula_ok {sys : Faults} {fs : FS} {p : Path} {b : Bool}
    (h : nestedFormula sys fs p = .ok b) :
    stat fs p = some Node.dir ∧ ReadDir sys fs p = .ok (fs.filterMap (childInfo p)) ∧
      (b = true ↔ ∃ f ∈ fs.filterMap (childInfo p),
        f.IsDir = true ∧ f.Name ≠ "src" ∧ f.Name ≠ "bin") := by
  unfold nestedFormula at h
  cases hr : ReadDir sys fs p with
  | error e => rw [hr] at h; cases h
  | ok files =>
    rw [hr] at h
    obtain ⟨hs, rfl⟩ := ReadDir_ok hr
    simp only [Except.ok.injEq] at h
    refine ⟨hs, rfl, ?_⟩
    rw [← h]
    generalize fs.filterMap (childInfo p) = files
    simp [and_assoc]

theorem only_files_beneath {fs : FS} (hwf : WF fs) {p q : Path}
    (hnd : ∀ n, stat fs (p ++ [n]) ≠ some Node.dir) (hu : under p q = true)
    (hq : stat fs q ≠ none) :
    q = p ∨ (q.dropLast = p ∧ q ≠ [] ∧ ∃ c, stat fs q = some (Node.file c)) := by
  obtain ⟨r, rfl⟩ := (under_iff _ _).1 hu
  cases r with
  | nil => exact Or.inl (by simp)
  | cons a r =>
    right
    have hr : r = [] := by
      by_contra hr
      have : stat fs ((p ++ [a]) ++ r) ≠ none := by simpa using hq
      exact hnd a (WF_ancestor hwf _ r hr this)
    subst hr
    refine ⟨by simp, by simp, ?_⟩
    obtain ⟨n, hn⟩ := Option.ne_none_iff_exists'.1 hq
    cases n with
    | file c => exact ⟨c, hn⟩
    | dir => exact absurd hn (hnd a)

/-! ### Safe removal -/

theorem safeRemoveLoop_cons (sys : Faults) (path : Path) (f : FileInfo)
    (files : List FileInfo) (fs : FS) :
    (f.IsDir = true ∧ (f.Name = "src" ∨ f.Name = "bin") ∧
      ((∃ e fs1, RemoveAll sys (Join path f.Name) fs = (some e, fs1) ∧
          safeRemoveLoop sys path (f :: files) fs = (some e, fs1)) ∨
       (∃ fs1, RemoveAll sys (Join path f.Name) fs = (none, fs1) ∧
          safeRemoveLoop sys path (f :: files) fs = safeRemoveLoop sys path files fs1))) ∨
    (f.IsDir = false ∧
      ((∃ e fs1, Remove sys (Join path f.Name) fs = (some e, fs1) ∧
          safeRemoveLoop sys path (f :: files) fs = (some e, fs1)) ∨
       (∃ fs1, Remove sys (Join path f.Name) fs = (none, fs1) ∧
          safeRemoveLoop sys path (f :: files) fs = safeRemoveLoop sys path files fs1))) ∨
    (f.IsDir = true ∧ f.Name ≠ "src" ∧ f.Name ≠ "bin" ∧
      safeRemoveLoop sys path (f :: files) fs = safeRemoveLoop sys path files fs) := by
  by_cases h1 : (f.IsDir && (f.Name == "src" || f.Name == "bin")) = true
  · left
    have h1' := h1
    simp only [Bool.and_eq_true, Bool.or_eq_true, beq_iff_eq] at h1'
    refine ⟨h1'.1, h1'.2, ?_⟩
    rcases hr : RemoveAll sys (Join path f.Name) fs with ⟨_ | e, fs1⟩
    · right
      refine ⟨fs1, rfl, ?_⟩
      rw [safeRemoveLoop, if_pos h1, hr]
    · left
      refine ⟨e, fs1, rfl, ?_⟩
      rw [safeRemoveLoop, if_pos h1, hr]
  · by_cases h2 : (!f.IsDir) = true
    · right; left
      have h2' : f.IsDir = false := by simpa using h2
      refine ⟨h2', ?_⟩
      rcases hr : Remove sys (Join path f.Name) fs with ⟨_ | e, fs1⟩
      · right
        refine ⟨fs1, rfl, ?_⟩
        rw [safeRemoveLoop, if_neg h1, if_pos h2, hr]
      · left
        refine ⟨e, fs1, rfl, ?_⟩
        rw [safeRemoveLoop, if_neg h1, if_pos h2, hr]
    · right; right
      have h2' : f.IsDir = true := by simpa using h2
      have h3 : ¬ (f.Name = "src" ∨ f.Name = "bin") := by
        intro h
        apply h1
        simp only [Bool.and_eq_true, Bool.or_eq_true, beq_iff_eq]
        exact ⟨h2', h⟩
      refine ⟨h2', fun h => h3 (Or.inl h), fun h => h3 (Or.inr h), ?_⟩
      rw [safeRemoveLoop, if_neg h1, if_neg h2]

theorem WF_safeRemoveLoop {sys : Faults} {path : Path} {files : List FileInfo} {fs fs' : FS}
    {r : Option Err} (h : WF fs) (hr : safeRemoveLoop sys path files fs = (r, fs')) :
    WF fs' := by
  induction files generalizing fs with
  | nil =>
    simp only [safeRemoveLoop, Prod.mk.injEq] at hr
    exact hr.2 ▸ h
  | cons f files ih =>
    rcases safeRemoveLoop_cons sys path f files fs with
      ⟨_, _, ⟨e, fs1, h1, h2⟩ | ⟨fs1, h1, h2⟩⟩ | ⟨_, ⟨e, fs1, h1, h2⟩ | ⟨fs1, h1, h2⟩⟩ |
      ⟨_, _, _, h2⟩
    · rw [h2] at hr; cases hr; exact WF_RemoveAll h h1
    · rw [h2] at hr; exact ih (WF_RemoveAll h h1) hr
    · rw [h2] at hr; cases hr; exact WF_Remove h h1
    · rw [h2] at hr; exact ih (WF_Remove h h1) hr
    · rw [h2] at hr; exact ih h hr

theorem Confined_safeRemoveLoop {sys : Faults} {path : Path} {files : List FileInfo}
    {fs fs' : FS} {r : Option Err} (hr : safeRemoveLoop sys path files fs = (r, fs')) :
    Confined (safeRemoved path files) fs fs' := by
  induction files generalizing fs with
  | nil =>
    simp only [safeRemoveLoop, Prod.mk.injEq] at hr
    exact hr.2 ▸ Confined.refl _ _
  | cons f files ih =>
    have hstep : ∀ {A : Path → Prop} {fs1 : FS}, Confined A fs fs1 →
        (∀ q, A q → safeRemoved path (f :: files) q) →
        safeRemoveLoop sys path files fs1 = (r, fs') →
        Confined (safeRemoved path (f :: files)) fs fs' := by
      intro A fs1 hA hAq hl
      refine (hA.trans (ih hl)).mono ?_
      rintro q _ (hq | ⟨g, hg, hq⟩)
      · exact hAq q hq
      · exact ⟨g, List.mem_cons_of_mem _ hg, hq⟩
    have hfail : ∀ {A : Path → Prop} {fs1 : FS}, Confined A fs fs1 →
        (∀ q, A q → safeRemoved path (f :: files) q) →
        Confined (safeRemoved path (f :: files)) fs fs1 :=
      fun hA hAq => hA.mono (fun q _ hq => hAq q hq)
    rcases safeRemoveLoop_cons sys path f files fs with
      ⟨hd, hn, ⟨e, fs1, h1, h2⟩ | ⟨fs1, h1, h2⟩⟩ | ⟨hd, ⟨e, fs1, h1, h2⟩ | ⟨fs1, h1, h2⟩⟩ |
      ⟨_, _, _, h2⟩
    · rw [h2] at hr; cases hr
      exact hfail (Confined_RemoveAll h1)
        (fun q hq => ⟨f, List.mem_cons_self _ _, Or.inl ⟨hd, hn, hq⟩⟩)
    · rw [h2] at hr
      exact hstep (Confined_RemoveAll h1)
        (fun q hq => ⟨f, List.mem_cons_self _ _, Or.inl ⟨hd, hn, hq⟩⟩) hr
    · rw [h2] at hr; cases hr
      exact hfail (Confined_Remove h1)
        (fun q hq => ⟨f, List.mem_cons_self _ _, Or.inr ⟨hd, hq⟩⟩)
    · rw [h2] at hr
      exact hstep (Confined_Remove h1)
        (fun q hq => ⟨f, List.mem_cons_self _ _, Or.inr ⟨hd, hq⟩⟩) hr
    · rw [h2] at hr
      exact hstep (Confined.refl (fun _ => False) fs) (fun q hq => hq.elim) hr

theorem safeRemoveLoop_gone {sys : Faults} {path : Path} {files : List FileInfo}
    {fs fs' : FS} (hr : safeRemoveLoop sys path files fs = (none, fs')) {q : Path}
    (hq : safeRemoved path files q) : stat fs' q = none := by
  induction files generalizing fs with
  | nil =>
    obtain ⟨f, hf, _⟩ := hq
    cases hf
  | cons f files ih =>
    obtain ⟨g, hg, hq⟩ := hq
    have hrest : ∀ {fs1 : FS}, safeRemoveLoop sys path files fs1 = (none, fs') →
        g ∈ files → stat fs' q = none :=
      fun hl hm => ih hl ⟨g, hm, hq⟩
    rcases safeRemoveLoop_cons sys path f files fs with
      ⟨hd, _, ⟨e, fs1, h1, h2⟩ | ⟨fs1, h1, h2⟩⟩ | ⟨hd, ⟨e, fs1, h1, h2⟩ | ⟨fs1, h1, h2⟩⟩ |
      ⟨hd, hs, hb, h2⟩
    · rw [h2] at hr; cases hr
    · rw [h2] at hr
      rcases List.mem_cons.1 hg with rfl | hm
      · rcases hq with ⟨_, _, hu⟩ | ⟨hnd, _⟩
        · exact (Confined_safeRemoveLoop hr).stat_none (RemoveAll_gone h1 hu)
        · rw [hd] at hnd; cases hnd
      · exact hrest hr hm
    · rw [h2] at hr; cases hr
    · rw [h2] at hr
      rcases List.mem_cons.1 hg with rfl | hm
      · rcases hq with ⟨hnd, _⟩ | ⟨_, rfl⟩
        · rw [hd] at hnd; cases hnd
        · exact (Confined_safeRemoveLoop hr).stat_none (Remove_gone h1)
      · exact hrest hr hm
    · rw [h2] at hr
      rcases List.mem_cons.1 hg with rfl | hm
      · rcases hq with ⟨_, hn, _⟩ | ⟨hnd, _⟩
        · rcases hn with hn | hn
          · exact absurd hn hs
          · exact absurd hn hb
        · rw [hd] at hnd; cases hnd
      · exact hrest hr hm

theorem safeRemoveFormula_cases (sys : Faults) (path : Path) (fs : FS) :
    (∃ e, ReadDir sys fs path = .error e ∧ safeRemoveFormula sys path fs = (some e, fs)) ∨
    (stat fs path = some Node.dir ∧
      safeRemoveFormula sys path fs =
        safeRemoveLoop sys path (fs.filterMap (childInfo path)) fs) := by
  unfold safeRemoveFormula
  cases hr : ReadDir sys fs path with
  | error e => exact Or.inl ⟨e, rfl, rfl⟩
  | ok files =>
    obtain ⟨hs, rfl⟩ := ReadDir_ok hr
    exact Or.inr ⟨hs, rfl⟩

theorem WF_safeRemoveFormula {sys : Faults} {path : Path} {fs fs' : FS} {r : Option Err}
    (h : WF fs) (hr : safeRemoveFormula sys path fs = (r, fs')) : WF fs' := by
  rcases safeRemoveFormula_cases sys path fs with ⟨e, _, he⟩ | ⟨_, he⟩
  · rw [he] at hr; cases hr; exact h
  · rw [he] at hr; exact WF_safeRemoveLoop h hr

/-- In a well-formed store every path that the safe removal of `path` touches
lies strictly beneath `path`. -/
theorem safeRemoved_under {fs : FS} (h : WF fs) {path q : Path}
    (hq : safeRemoved path (fs.filterMap (childInfo path)) q) :
    ∃ a r, q = path ++ a :: r := by
  obtain ⟨f, hf, hq⟩ := hq
  obtain ⟨n, hm, _⟩ := (mem_listing fs path f).1 hf
  have hj := Join_name path f.Name (WF_child_name h hm)
  rw [hj] at hq
  rcases hq with ⟨_, _, hu⟩ | ⟨_, rfl⟩
  · obtain ⟨r, rfl⟩ := (under_iff _ _).1 hu
    exact ⟨f.Name, r, by simp⟩
  · exact ⟨f.Name, [], by simp⟩

theorem Confined_safeRemoveFormula {sys : Faults} {path : Path} {fs fs' : FS}
    {r : Option Err} (h : WF fs) (hr : safeRemoveFormula sys path fs = (r, fs')) :
    Confined (fun q => ∃ a r, q = path ++ a :: r) fs fs' := by
  rcases safeRemoveFormula_cases sys path fs with ⟨e, _, he⟩ | ⟨_, he⟩
  · rw [he] at hr; cases hr; exact Confined.refl _ _
  · rw [he] at hr
    exact (Confined_safeRemoveLoop hr).mono (fun q _ hq => safeRemoved_under h hq)

/-! ### The recursion of deleteFormula -/

theorem deleteFormulaFrom_nil (sys : Faults) (index : Nat) (path : Path) (fs : FS) :
    (∃ e, nestedFormula sys fs path = .error e ∧
      deleteFormulaFrom sys [] index path fs = (some e, fs)) ∨
    (nestedFormula sys fs path = .ok true ∧
      deleteFormulaFrom sys [] index path fs = safeRemoveFormula sys path fs) ∨
    (nestedFormula sys fs path = .ok false ∧
      deleteFormulaFrom sys [] index path fs = RemoveAll sys path fs) := by
  unfold deleteFormulaFrom
  cases nestedFormula sys fs path with
  | error e => exact Or.inl ⟨e, rfl, rfl⟩
  | ok b =>
    cases b with
    | true => exact Or.inr (Or.inl ⟨rfl, rfl⟩)
    | false => exact Or.inr (Or.inr ⟨rfl, rfl⟩)

theorem deleteFormulaFrom_cons (sys : Faults) (g : String) (rest : List String)
    (index : Nat) (path : Path) (fs : FS) :
    (∃ e fs1, deleteFormulaFrom sys rest (index + 1) (Join path g) fs = (some e, fs1) ∧
      deleteFormulaFrom sys (g :: rest) index path fs = (some e, fs1)) ∨
    (∃ fs1, deleteFormulaFrom sys rest (index + 1) (Join path g) fs = (none, fs1) ∧
      ((index = 0 ∧ deleteFormulaFrom sys (g :: rest) index path fs = (none, fs1)) ∨
       (index ≠ 0 ∧
        ((∃ e, canDelete sys fs1 path = .error e ∧
            deleteFormulaFrom sys (g :: rest) index path fs = (some e, fs1)) ∨
         (canDelete sys fs1 path = .ok true ∧
            deleteFormulaFrom sys (g :: rest) index path fs = RemoveAll sys path fs1) ∨
         (canDelete sys fs1 path = .ok false ∧
            deleteFormulaFrom sys (g :: rest) index path fs = (none, fs1)))))) := by
  rcases hr : deleteFormulaFrom sys rest (index + 1) (Join path g) fs with ⟨_ | e, fs1⟩
  · right
    refine ⟨fs1, rfl, ?_⟩
    by_cases hi : index = 0
    · left
      refine ⟨hi, ?_⟩
      rw [deleteFormulaFrom, hr]
      simp [hi]
    · right
      refine ⟨hi, ?_⟩
      cases hc : canDelete sys fs1 path with
      | error e =>
        left
        refine ⟨e, rfl, ?_⟩
        rw [deleteFormulaFrom, hr]
        simp [hi, hc]
      | ok b =>
        cases b with
        | true =>
          right; left
          refine ⟨rfl, ?_⟩
          rw [deleteFormulaFrom, hr]
          simp [hi, hc]
        | false =>
          right; right
          refine ⟨rfl, ?_⟩
          rw [deleteFormulaFrom, hr]
          simp [hi, hc]
  · left
    refine ⟨e, fs1, rfl, ?_⟩
    rw [deleteFormulaFrom, hr]

theorem WF_deleteFormulaFrom {sys : Faults} {rest : List String} {index : Nat} {path : Path}
    {fs fs' : FS} {r : Option Err} (h : WF fs)
    (hr : deleteFormulaFrom sys rest index path fs = (r, fs')) : WF fs' := by
  induction rest generalizing index path fs' r with
  | nil =>
    rcases deleteFormulaFrom_nil sys index path fs with ⟨e, _, he⟩ | ⟨_, he⟩ | ⟨_, he⟩
    · rw [he] at hr; cases hr; exact h
    · rw [he] at hr; exact WF_safeRemoveFormula h hr
    · rw [he] at hr; exact WF_RemoveAll h hr
  | cons g rest ih =>
    rcases deleteFormulaFrom_cons sys g rest index path fs with
      ⟨e, fs1, h1, h2⟩ | ⟨fs1, h1, ⟨_, h2⟩ | ⟨_, ⟨e, _, h2⟩ | ⟨_, h2⟩ | ⟨_, h2⟩⟩⟩
    · rw [h2] at hr; cases hr; exact ih h1
    · rw [h2] at hr; cases hr; exact ih h1
    · rw [h2] at hr; cases hr; exact ih h1
    · rw [h2] at hr; exact WF_RemoveAll (ih h1) hr
    · rw [h2] at hr; cases hr; exact ih h1

theorem JoinAll_cons (path : Path) (g : String) (rest : List String) :
    JoinAll path (g :: rest) = JoinAll (Join path g) rest := rfl

theorem JoinAll_take_succ (path : Path) (g : String) (rest : List String) (i : Nat) :
    JoinAll path ((g :: rest).take (i + 1)) = JoinAll (Join path g) (rest.take i) := rfl

/-- Whatever the outcome, the recursion only removes paths, and every existing
path it removes is at or beneath the leaf, or is a visited directory below
the starting level, or is a file directly inside such a directory. -/
theorem Confined_deleteFormulaFrom {sys : Faults} {rest : List String} {index : Nat}
    {path : Path} {fs fs' : FS} {r : Option Err} (h : WF fs)
    (hr : deleteFormulaFrom sys rest index path fs = (r, fs')) :
    Confined (fun q => under (JoinAll path rest) q = true ∨
      ∃ i, i < rest.length ∧ 1 ≤ index + i ∧
        (q = JoinAll path (rest.take i) ∨
          (q.dropLast = JoinAll path (rest.take i) ∧ q ≠ [] ∧
            ∃ c, stat fs q = some (Node.file c)))) fs fs' := by
  induction rest generalizing index path fs' r with
  | nil =>
    rcases deleteFormulaFrom_nil sys index path fs with ⟨e, _, he⟩ | ⟨_, he⟩ | ⟨_, he⟩
    · rw [he] at hr; cases hr; exact Confined.refl _ _
    · rw [he] at hr
      refine (Confined_safeRemoveFormula h hr).mono ?_
      rintro q _ ⟨a, r, rfl⟩
      exact Or.inl (under_append _ _)
    · rw [he] at hr
      exact (Confined_RemoveAll hr).mono (fun q _ hq => Or.inl hq)
  | cons g rest ih =>
    have hdeep : ∀ {r1 : Option Err} {fs1 : FS},
        deleteFormulaFrom sys rest (index + 1) (Join path g) fs = (r1, fs1) →
        Confined (fun q => under (JoinAll path (g :: rest)) q = true ∨
          ∃ i, i < (g :: rest).length ∧ 1 ≤ index + i ∧
            (q = JoinAll path ((g :: rest).take i) ∨
              (q.dropLast = JoinAll path ((g :: rest).take i) ∧ q ≠ [] ∧
                ∃ c, stat fs q = some (Node.file c)))) fs fs1 := by
      intro r1 fs1 h1
      refine (ih h1).mono ?_
      rintro q _ (hq | ⟨i, hi, _, hq⟩)
      · exact Or.inl hq
      · refine Or.inr ⟨i + 1, by simpa using hi, by omega, ?_⟩
        rw [JoinAll_take_succ]
        exact hq
    rcases deleteFormulaFrom_cons sys g rest index path fs with
      ⟨e, fs1, h1, h2⟩ | ⟨fs1, h1, ⟨_, h2⟩ | ⟨hi, ⟨e, _, h2⟩ | ⟨hc, h2⟩ | ⟨_, h2⟩⟩⟩
    · rw [h2] at hr; cases hr; exact hdeep h1
    · rw [h2] at hr; cases hr; exact hdeep h1
    · rw [h2] at hr; cases hr; exact hdeep h1
    · rw [h2] at hr
      have hwf1 := WF_deleteFormulaFrom h h1
      have hnd := (canDelete_true_iff hwf1 hc).1 rfl
      have hprune : Confined (fun q => q = path ∨
          (q.dropLast = path ∧ q ≠ [] ∧ ∃ c, stat fs1 q = some (Node.file c))) fs1 fs' :=
        (Confined_RemoveAll hr).mono (fun q hs hu => only_files_beneath hwf1 hnd hu hs)
      refine ((hdeep h1).trans hprune).mono ?_
      rintro q _ (hq | hq)
      · exact hq
      · refine Or.inr ⟨0, by simp, by omega, ?_⟩
        rcases hq with hq | ⟨h3, h4, c, hc⟩
        · exact Or.inl hq
        · exact Or.inr ⟨h3, h4, c, (hdeep h1).stat_some hc⟩
    · rw [h2] at hr; cases hr; exact hdeep h1

/-- Whatever the outcome, an existing path that the recursion removes is at
or beneath the leaf, or is a visited directory below the starting level that
is gone afterwards, or is a file directly inside such a directory. -/
theorem deleteFormulaFrom_removed {sys : Faults} {rest : List String} {index : Nat}
    {path : Path} {fs fs' : FS} {r : Option Err} (hwf : WF fs)
    (hr : deleteFormulaFrom sys rest index path fs = (r, fs')) {q : Path}
    (hq : stat fs q ≠ none) (hg : stat fs' q = none) :
    under (JoinAll path rest) q = true ∨
      ∃ i, i < rest.length ∧ 1 ≤ index + i ∧
        stat fs' (JoinAll path (rest.take i)) = none ∧
        (q = JoinAll path (rest.take i) ∨
          (q.dropLast = JoinAll path (rest.take i) ∧ q ≠ [] ∧
            ∃ c, stat fs q = some (Node.file c))) := by
  induction rest generalizing index path fs' r with
  | nil =>
    rcases (Confined_deleteFormulaFrom hwf hr).stat_cases q with heq | ⟨_, hA⟩
    · rw [heq] at hg; exact absurd hg hq
    · rcases hA hq with hu | ⟨i, hi, _⟩
      · exact Or.inl hu
      · simp at hi
  | cons g rest ih =>
    have hdeep : ∀ {r1 : Option Err} {fs1 : FS},
        deleteFormulaFrom sys rest (index + 1) (Join path g) fs = (r1, fs1) →
        stat fs1 q = none → (∀ p, stat fs1 p = none → stat fs' p = none) →
        under (JoinAll path (g :: rest)) q = true ∨
          ∃ i, i < (g :: rest).length ∧ 1 ≤ index + i ∧
            stat fs' (JoinAll path ((g :: rest).take i)) = none ∧
            (q = JoinAll path ((g :: rest).take i) ∨
              (q.dropLast = JoinAll path ((g :: rest).take i) ∧ q ≠ [] ∧
                ∃ c, stat fs q = some (Node.file c))) := by
      intro r1 fs1 h1 hg1 hshrink
      rcases ih h1 hg1 with hu | ⟨i, hi, _, hgone, hqi⟩
      · exact Or.inl hu
      · refine Or.inr ⟨i + 1, by simpa using hi, by omega, ?_, ?_⟩
        · rw [JoinAll_take_succ]; exact hshrink _ hgone
        · rw [JoinAll_take_succ]; exact hqi
    rcases deleteFormulaFrom_cons sys g rest index path fs with
      ⟨e, fs1, h1, h2⟩ | ⟨fs1, h1, ⟨_, h2⟩ | ⟨hi, ⟨e, _, h2⟩ | ⟨hc, h2⟩ | ⟨_, h2⟩⟩⟩
    · rw [h2] at hr; cases hr; exact hdeep h1 hg (fun _ hp => hp)
    · rw [h2] at hr; cases hr; exact hdeep h1 hg (fun _ hp => hp)
    · rw [h2] at hr; cases hr; exact hdeep h1 hg (fun _ hp => hp)
    · rw [h2] at hr
      have hwf1 := WF_deleteFormulaFrom hwf h1
      have hc1 := Confined_deleteFormulaFrom hwf h1
      by_cases hg1 : stat fs1 q = none
      · exact hdeep h1 hg1 (fun _ hp => (Confined_RemoveAll hr).stat_none hp)
      · have hu : under path q = true := by
          rcases (Confined_RemoveAll hr).stat_cases q with heq | ⟨_, hA⟩
          · rw [heq] at hg; exact absurd hg hg1
          · exact hA hg1
        have hrn : r = none := by
          cases r with
          | none => rfl
          | some e =>
            have := RemoveAll_err hr
            rw [this] at hg
            exact absurd hg hg1
        subst hrn
        have hpath : stat fs' path = none := RemoveAll_gone hr (under_refl path)
        have hnd := (canDelete_true_iff hwf1 hc).1 rfl
        refine Or.inr ⟨0, by simp, by omega, hpath, ?_⟩
        rcases only_files_beneath hwf1 hnd hu hg1 with hqp | ⟨h3, h4, c, hcf⟩
        · exact Or.inl hqp
        · exact Or.inr ⟨h3, h4, c, hc1.stat_some hcf⟩
    · rw [h2] at hr; cases hr; exact hdeep h1 hg (fun _ hp => hp)

theorem deleteFormulaFrom_reads_leaf {sys : Faults} {rest : List String} {index : Nat}
    {path : Path} {fs fs' : FS}
    (hr : deleteFormulaFrom sys rest index path fs = (none, fs')) :
    ∃ b, nestedFormula sys fs (JoinAll path rest) = .ok b := by
  induction rest generalizing index path fs' with
  | nil =>
    rcases deleteFormulaFrom_nil sys index path fs with ⟨e, _, he⟩ | ⟨hb, _⟩ | ⟨hb, _⟩
    · rw [he] at hr; cases hr
    · exact ⟨true, hb⟩
    · exact ⟨false, hb⟩
  | cons g rest ih =>
    rcases deleteFormulaFrom_cons sys g rest index path fs with
      ⟨e, fs1, h1, h2⟩ | ⟨fs1, h1, _⟩
    · rw [h2] at hr; cases hr
    · exact ih h1

theorem nestedFormula_false_of {sys : Faults} {fs : FS} {p : Path} {b : Bool} (hwf : WF fs)
    (h : nestedFormula sys fs p = .ok b)
    (hsub : ∀ n, stat fs (p ++ [n]) = some Node.dir → n = "src" ∨ n = "bin") : b = false := by
  cases b with
  | false => rfl
  | true =>
    obtain ⟨f, hf, hd, h1, h2⟩ := (nestedFormula_ok h).2.2.1 rfl
    obtain ⟨n, hm, hn⟩ := (mem_listing fs p f).1 hf
    cases n with
    | file c => rw [hd] at hn; cases hn
    | dir =>
      rcases hsub f.Name (stat_of_mem hwf.1 hm) with h3 | h3
      · exact absurd h3 h1
      · exact absurd h3 h2

theorem nestedFormula_true_of {sys : Faults} {fs : FS} {p : Path} {b : Bool}
    (h : nestedFormula sys fs p = .ok b) {n : String} (h1 : n ≠ "src") (h2 : n ≠ "bin")
    (hs : stat fs (p ++ [n]) = some Node.dir) : b = true :=
  (nestedFormula_ok h).2.2.2 ⟨⟨n, true⟩, (mem_listing fs p _).2 ⟨Node.dir, mem_of_stat hs, rfl⟩,
    rfl, h1, h2⟩

/-- A non-nested leaf and everything beneath it are gone after a successful
run of the recursion, for any groups. -/
theorem deleteFormulaFrom_leaf_gone {sys : Faults} {rest : List String} {index : Nat}
    {path : Path} {fs fs' : FS}
    (hleaf : nestedFormula sys fs (JoinAll path rest) = .ok false)
    (hr : deleteFormulaFrom sys rest index path fs = (none, fs')) {q : Path}
    (hq : under (JoinAll path rest) q = true) : stat fs' q = none := by
  induction rest generalizing index path fs' with
  | nil =>
    rcases deleteFormulaFrom_nil sys index path fs with ⟨e, _, he⟩ | ⟨hb, _⟩ | ⟨_, he⟩
    · rw [he] at hr; cases hr
    · simp only [JoinAll, List.foldl_nil] at hleaf
      rw [hleaf] at hb; cases hb
    · rw [he] at hr
      exact RemoveAll_gone hr hq
  | cons g rest ih =>
    rcases deleteFormulaFrom_cons sys g rest index path fs with
      ⟨e, fs1, h1, h2⟩ | ⟨fs1, h1, ⟨_, h2⟩ | ⟨_, ⟨e, _, h2⟩ | ⟨_, h2⟩ | ⟨_, h2⟩⟩⟩
    · rw [h2] at hr; cases hr
    · rw [h2] at hr; cases hr; exact ih hleaf h1 hq
    · rw [h2] at hr; cases hr
    · rw [h2] at hr
      exact (Confined_RemoveAll hr).stat_none (ih hleaf h1 hq)
    · rw [h2] at hr; cases hr; exact ih hleaf h1 hq

/-- For groups that are names: level by level, the visited directory is
removed exactly when the deeper levels left it without subdirectories. -/
theorem deleteFormulaFrom_prunes {sys : Faults} {rest : List String} {index : Nat}
    {path : Path} {fs fs' : FS} (hwf : WF fs) (hn : ∀ s ∈ rest, isName s)
    (hr : deleteFormulaFrom sys rest index path fs = (none, fs')) :
    ∀ k, k < rest.length → 1 ≤ index + k →
      ∃ fsk, deleteFormulaFrom sys (rest.drop (k + 1)) (index + k + 1)
          (path ++ rest.take (k + 1)) fs = (none, fsk) ∧
        stat fs (path ++ rest.take k) = some Node.dir ∧
        (stat fs' (path ++ rest.take k) = none ↔
          ∀ n, stat fsk (path ++ rest.take k ++ [n]) ≠ some Node.dir) := by
  induction rest generalizing index path fs' with
  | nil => intro k hk; simp at hk
  | cons g rest ih =>
    have hg : Join path g = path ++ [g] := Join_name path g (hn g (List.mem_cons_self _ _))
    have hn' : ∀ s ∈ rest, isName s := fun s hs => hn s (List.mem_cons_of_mem _ hs)
    rcases deleteFormulaFrom_cons sys g rest index path fs with
      ⟨e, fs1, h1, h2⟩ | ⟨fs1, h1, hcase⟩
    · rw [h2] at hr; cases hr
    rw [hg] at h1
    have hwf1 := WF_deleteFormulaFrom hwf h1
    have hc1 := Confined_deleteFormulaFrom hwf h1
    intro k hk hik
    cases k with
    | zero =>
      have hi : index ≠ 0 := by omega
      refine ⟨fs1, by simpa using h1, ?_⟩
      rcases hcase with ⟨h0, _⟩ | ⟨_, ⟨e, _, h2⟩ | ⟨hc, h2⟩ | ⟨hc, h2⟩⟩
      · exact absurd h0 hi
      · rw [h2] at hr; cases hr
      · rw [h2] at hr
        have hd := (canDelete_ok hc).1
        refine ⟨by simpa using hc1.stat_some hd, ?_⟩
        have hnd := (canDelete_true_iff hwf1 hc).1 rfl
        simp only [List.take_zero, List.append_nil]
        exact ⟨fun _ => hnd, fun _ => RemoveAll_gone hr (under_refl path)⟩
      · rw [h2] at hr; cases hr
        have hd := (canDelete_ok hc).1
        refine ⟨by simpa using hc1.stat_some hd, ?_⟩
        simp only [List.take_zero, List.append_nil]
        constructor
        · intro h; rw [hd] at h; cases h
        · intro h
          have := (canDelete_true_iff hwf1 hc).2 h
          cases this
    | succ k =>
      obtain ⟨fsk, hk1, hk2, hk3⟩ := ih hn' h1 k (by simpa using hk) (by omega)
      have e1 : index + (k + 1) + 1 = index + 1 + k + 1 := by omega
      have e2 : ∀ j, path ++ (g :: rest).take (j + 1) = path ++ [g] ++ rest.take j := by
        intro j; simp
      refine ⟨fsk, ?_, ?_, ?_⟩
      · rw [e1, e2]
        simpa using hk1
      · rw [e2]; exact hk2
      · rw [e2]
        rcases hcase with ⟨_, h2⟩ | ⟨_, ⟨e, _, h2⟩ | ⟨hc, h2⟩ | ⟨_, h2⟩⟩
        · rw [h2] at hr; cases hr; exact hk3
        · rw [h2] at hr; cases hr
        · rw [h2] at hr
          have hnd := (canDelete_true_iff hwf1 hc).1 rfl
          have hgone : stat fs1 (path ++ [g] ++ rest.take k) = none := by
            by_contra hne
            by_cases ht : rest.take k = []
            · rw [ht, List.append_nil] at hne hk2
              rcases hc1.stat_cases (path ++ [g]) with h3 | ⟨h3, _⟩
              · rw [hk2] at h3
                exact hnd g h3
              · exact hne h3
            · exact hnd g (WF_ancestor hwf1 (path ++ [g]) _ ht hne)
          have hgone' : stat fs' (path ++ [g] ++ rest.take k) = none :=
            (Confined_RemoveAll hr).stat_none hgone
          exact ⟨fun _ => hk3.1 hgone, fun _ => hgone'⟩
        · rw [h2] at hr; cases hr; exact hk3

theorem under_snoc_inj {p q : Path} {a b : String} (h1 : under (p ++ [a]) q = true)
    (h2 : under (p ++ [b]) q = true) : a = b := by
  obtain ⟨r, hr⟩ := (under_iff _ _).1 h1
  obtain ⟨r', hr'⟩ := (under_iff _ _).1 h2
  rw [hr] at hr'
  simp only [List.append_assoc, List.append_cancel_left_eq, List.singleton_append,
    List.cons.injEq] at hr'
  exact hr'.1

theorem ne_append_cons (p : Path) (a : String) (r : Path) (t : Path) :
    p ≠ (p ++ t) ++ a :: r := by
  intro h
  have := congrArg List.length h
  simp at this

/-- For groups that are names and a nested leaf, a successful run of the
recursion does what the safe removal of the leaf does, and nothing more. -/
theorem deleteFormulaFrom_nested {sys : Faults} {rest : List String} {index : Nat}
    {path : Path} {fs fs' : FS} (hwf : WF fs) (hn : ∀ s ∈ rest, isName s)
    (hnest : nestedFormula sys fs (path ++ rest) = .ok true)
    (hr : deleteFormulaFrom sys rest index path fs = (none, fs')) :
    safeRemoveFormula sys (path ++ rest) fs = (none, fs') := by
  induction rest generalizing index path fs' with
  | nil =>
    rw [List.append_nil] at hnest ⊢
    rcases deleteFormulaFrom_nil sys index path fs with ⟨e, _, he⟩ | ⟨_, he⟩ | ⟨hb, _⟩
    · rw [he] at hr; cases hr
    · rw [← he]; exact hr
    · rw [hnest] at hb; cases hb
  | cons g rest ih =>
    have hg : Join path g = path ++ [g] := Join_name path g (hn g (List.mem_cons_self _ _))
    have hn' : ∀ s ∈ rest, isName s := fun s hs => hn s (List.mem_cons_of_mem _ hs)
    have hL : path ++ g :: rest = path ++ [g] ++ rest := by simp
    rw [hL] at hnest ⊢
    rcases deleteFormulaFrom_cons sys g rest index path fs with
      ⟨e, fs1, h1, h2⟩ | ⟨fs1, h1, hcase⟩
    · rw [h2] at hr; cases hr
    rw [hg] at h1
    have hs1 := ih hn' hnest h1
    have hwf1 := WF_deleteFormulaFrom hwf h1
    have hdirL := (nestedFormula_ok hnest).1
    have hdir : stat fs (path ++ [g]) = some Node.dir := by
      by_cases ht : rest = []
      · subst ht; simpa using hdirL
      · exact WF_ancestor hwf _ rest ht (by rw [hdirL]; simp)
    have hdir1 : stat fs1 (path ++ [g]) = some Node.dir := by
      rw [← hdir]
      apply (Confined_safeRemoveFormula hwf hs1).stat_eq
      rintro ⟨a, r, h⟩
      exact ne_append_cons _ a r rest h
    rcases hcase with ⟨_, h2⟩ | ⟨_, ⟨e, _, h2⟩ | ⟨hc, _⟩ | ⟨_, h2⟩⟩
    · rw [h2] at hr; cases hr; exact hs1
    · rw [h2] at hr; cases hr
    · exact absurd hdir1 ((canDelete_true_iff hwf1 hc).1 rfl g)
    · rw [h2] at hr; cases hr; exact hs1

/-! ### Levels of the recursion -/

theorem drop_take_step (root : Path) (S : List String) (i : Nat) (hi : i < S.length) :
    ∃ g, S.drop i = g :: S.drop (i + 1) ∧
      Join (JoinAll root (S.take i)) g = JoinAll root (S.take (i + 1)) := by
  induction S generalizing root i with
  | nil => simp at hi
  | cons a S ih =>
    cases i with
    | zero => exact ⟨a, by simp, rfl⟩
    | succ i =>
      obtain ⟨g, h1, h2⟩ := ih (Join root a) i (by simpa using hi)
      exact ⟨g, by simpa using h1, by simpa [JoinAll] using h2⟩

/-- The call at level `i` in terms of the call at level `i + 1`. -/
theorem deleteFormula_level (sys : Faults) (root : Path) (S : List String) (i : Nat)
    (hi : i < S.length) (fs : FS) :
    (∃ e fs1, deleteFormula sys (JoinAll root (S.take (i + 1))) S (i + 1) fs = (some e, fs1) ∧
      deleteFormula sys (JoinAll root (S.take i)) S i fs = (some e, fs1)) ∨
    (∃ fs1, deleteFormula sys (JoinAll root (S.take (i + 1))) S (i + 1) fs = (none, fs1) ∧
      ((i = 0 ∧ deleteFormula sys (JoinAll root (S.take i)) S i fs = (none, fs1)) ∨
       (i ≠ 0 ∧
        ((∃ e, canDelete sys fs1 (JoinAll root (S.take i)) = .error e ∧
            deleteFormula sys (JoinAll root (S.take i)) S i fs = (some e, fs1)) ∨
         (canDelete sys fs1 (JoinAll root (S.take i)) = .ok true ∧
            deleteFormula sys (JoinAll root (S.take i)) S i fs =
              RemoveAll sys (JoinAll root (S.take i)) fs1) ∨
         (canDelete sys fs1 (JoinAll root (S.take i)) = .ok false ∧
            deleteFormula sys (JoinAll root (S.take i)) S i fs = (none, fs1)))))) := by
  obtain ⟨g, h1, h2⟩ := drop_take_step root S i hi
  have := deleteFormulaFrom_cons sys g (S.drop (i + 1)) i (JoinAll root (S.take i)) fs
  rw [h2, ← h1] at this
  exact this

/-- A failure of the call at any level is the result of the whole call. -/
theorem deleteFormula_failure_rises (sys : Faults) (root : Path) (S : List String)
    (fs : FS) (i : Nat) (hi : i ≤ S.length) {e : Err} {fs1 : FS}
    (h : deleteFormula sys (JoinAll root (S.take i)) S i fs = (some e, fs1)) :
    deleteFormula sys root S 0 fs = (some e, fs1) := by
  induction i with
  | zero => simpa [JoinAll] using h
  | succ i ih =>
    apply ih (by omega)
    rcases deleteFormula_level sys root S i (by omega) fs with
      ⟨e', fs', h1, h2⟩ | ⟨fs', h1, _⟩
    · rw [h] at h1
      cases h1
      exact h2
    · rw [h] at h1
      cases h1

/-! ### Formula names and flags -/

theorem Split_ne_nil (s : String) (sep : Char) : Split s sep ≠ [] := by
  simp [Split, splitChars_ne_nil]

theorem getGroupsFromFormulaName_eq (s : String) :
    getGroupsFromFormulaName s =
      if (Split s ' ').head? = some cmdUse then .ok ((Split s ' ').drop 1)
      else .error Err.ErrIncorrectFormulaName := by
  have hlen : (Split s ' ').length > 0 := List.length_pos.2 (Split_ne_nil s ' ')
  simp only [getGroupsFromFormulaName, hlen, true_and]

theorem EqualFold_empty {fold : Char → Char} {s : String} (h : EqualFold fold "" s = true) :
    s = "" := by
  simp only [EqualFold, beq_iff_eq] at h
  have : s.data = [] := by simpa using h.symm
  cases s
  simp_all

theorem EqualFold_join {fold : Char → Char} {a b w : String} (h1 : EqualFold fold a w = true)
    (h2 : EqualFold fold b w = true) : EqualFold fold a b = true := by
  simp only [EqualFold, beq_iff_eq] at h1 h2 ⊢
  rw [h1, h2]

theorem foldl_find_none (fold : Char → Char) (ws : String) (reg : List (String × String))
    (init : Workspace) (h : ∀ e ∈ reg, EqualFold fold e.1 ws = false) :
    reg.foldl
      (fun acc entry => if EqualFold fold entry.1 ws then (⟨entry.1, entry.2⟩ : Workspace)
        else acc) init = init := by
  induction reg generalizing init with
  | nil => rfl
  | cons x xs ih =>
    have hx := h x (List.mem_cons_self _ _)
    simp only [List.foldl_cons, hx]
    exact ih _ (fun e he => h e (List.mem_cons_of_mem _ he))

theorem foldl_find_some (fold : Char → Char) (ws : String) (reg : List (String × String))
    (init : Workspace) (huniq : reg.Pairwise (fun a b => EqualFold fold a.1 b.1 = false))
    (e : String × String) (he : e ∈ reg) (hm : EqualFold fold e.1 ws = true) :
    reg.foldl
      (fun acc entry => if EqualFold fold entry.1 ws then (⟨entry.1, entry.2⟩ : Workspace)
        else acc) init = ⟨e.1, e.2⟩ := by
  induction reg generalizing init with
  | nil => cases he
  | cons x xs ih =>
    rw [List.pairwise_cons] at huniq
    rcases List.mem_cons.1 he with rfl | he'
    · simp only [List.foldl_cons, hm, ↓reduceIte]
      apply foldl_find_none
      intro y hy
      cases hy' : EqualFold fold y.1 ws with
      | false => rfl
      | true =>
        have := huniq.1 y hy
        rw [EqualFold_join hm hy'] at this
        cases this
    · simp only [List.foldl_cons]
      exact ih _ huniq.2 he'

theorem findWorkspace_none (fold : Char → Char) (ws : String) (reg : List (String × String))
    (h : ∀ e ∈ reg, EqualFold fold e.1 ws = false) :
    findWorkspace fold reg ws = ⟨"", ""⟩ :=
  foldl_find_none fold ws reg _ h

theorem findWorkspace_some (fold : Char → Char) (ws : String) (reg : List (String × String))
    (huniq : reg.Pairwise (fun a b => EqualFold fold a.1 b.1 = false))
    (e : String × String) (he : e ∈ reg) (hm : EqualFold fold e.1 ws = true) :
    findWorkspace fold reg ws = ⟨e.1, e.2⟩ :=
  foldl_find_some fold ws reg _ huniq e he hm

theorem resolveFlags_unfold (d : deleteFormulaCmd) (flags : String → Except Err String)
    (reg : List (String × String)) (ws f : String)
    (hw : flags workspaceFlagName = .ok ws) (hf : flags formulaFlagName = .ok f)
    (hreg : d.workspaceList = .ok reg) :
    d.resolveFlags flags =
      if ws = "" then .error (Err.msg (d.missingFlagText workspaceFlagName))
      else if f = "" then .error (Err.msg (d.missingFlagText formulaFlagName))
      else if (findWorkspace d.fold reg ws).Name = "" then
        .error (Err.msg "no workspace found with this name")
      else if (Split f ' ').head? = some cmdUse then
        .ok ⟨findWorkspace d.fold reg ws, (Split f ' ').drop 1⟩
      else .error Err.ErrIncorrectFormulaName := by
  simp only [deleteFormulaCmd.resolveFlags, hw, hf, hreg, getGroupsFromFormulaName_eq]
  by_cases h1 : ws = ""
  · simp [h1]
  · by_cases h2 : f = ""
    · simp [h1, h2]
    · by_cases h3 : (findWorkspace d.fold reg ws).Name = ""
      · simp [h1, h2, h3]
      · by_cases h4 : (Split f ' ').head? = some cmdUse
        · simp [h1, h2, h3, h4]
        · simp [h1, h2, h3, h4]

/-! ### Slices and the walk by prompts -/

theorem StrSlice.elems_ofList (l : List String) : (StrSlice.ofList l).elems = l := by
  simp [StrSlice.elems, StrSlice.ofList]

theorem removeFromArray_elems (ss : StrSlice) (r : String) :
    (removeFromArray ss r).elems = ss.elems.erase r := by
  unfold removeFromArray
  by_cases h : r ∈ ss.elems
  · rw [if_pos h]
    simp only [StrSlice.elems]
    apply List.take_left'
    exact List.length_erase_of_mem h
  · rw [if_neg h, List.erase_of_not_mem h]

theorem erase_eq_filter_ne {l : List String} (h : l.Nodup) (a : String) :
    l.erase a = l.filter (fun n => n ≠ a) := by
  rw [List.Nodup.erase_eq_filter h]
  congr 1
  funext n
  cases h' : decide (n = a) <;> simp_all

theorem isFormula_iff (dirs : StrSlice) : isFormula dirs = true ↔ "src" ∈ dirs.elems := by
  simp [isFormula, srcDir]

theorem hasFormulaInDir_fst (dirs : StrSlice) (hn : dirs.elems.Nodup)
    (hd : "docs" ∉ dirs.elems) :
    (hasFormulaInDir dirs).1 = !(dirs.elems.all (fun n => n = "src")) := by
  have h1 : (removeFromArray dirs docsDir).elems = dirs.elems := by
    rw [removeFromArray_elems, docsDir, List.erase_of_not_mem hd]
  have h2 : (removeFromArray (removeFromArray dirs docsDir) srcDir).elems =
      dirs.elems.erase "src" := by
    rw [removeFromArray_elems, h1, srcDir]
  simp only [hasFormulaInDir, h2]
  by_cases hall : ∀ n ∈ dirs.elems, n = "src"
  · have he : dirs.elems.erase "src" = [] := by
      apply List.eq_nil_iff_forall_not_mem.2
      intro x hx
      have := (List.Nodup.mem_erase_iff hn).1 hx
      exact this.1 (hall x this.2)
    have ha : dirs.elems.all (fun n => decide (n = "src")) = true := by
      simpa using hall
    rw [he, ha]
    rfl
  · have ha : dirs.elems.all (fun n => decide (n = "src")) = false := by
      cases hb : dirs.elems.all (fun n => decide (n = "src")) with
      | false => rfl
      | true => exact absurd (by simpa using hb) hall
    rw [ha]
    push_neg at hall
    obtain ⟨x, hx, hne⟩ := hall
    have hm : x ∈ dirs.elems.erase "src" := (List.Nodup.mem_erase_iff hn).2 ⟨hne, hx⟩
    have hpos : 0 < (dirs.elems.erase "src").length := List.length_pos_of_mem hm
    simp [hpos]

theorem StrSlice.length_elems (ss : StrSlice) (hfit : ss.len ≤ ss.array.length) :
    ss.elems.length = ss.len := by
  simp [StrSlice.elems, List.length_take, Nat.min_eq_left hfit]

theorem removeFromArray_fits (ss : StrSlice) (r : String) (hfit : ss.len ≤ ss.array.length) :
    (removeFromArray ss r).len ≤ (removeFromArray ss r).array.length := by
  unfold removeFromArray
  by_cases h : r ∈ ss.elems
  · rw [if_pos h]
    have hlen := ss.length_elems hfit
    have hpos : 0 < ss.elems.length := List.length_pos_of_mem h
    simp only [List.length_append, List.length_erase_of_mem h, List.length_drop]
    omega
  · rw [if_neg h]
    exact hfit

/-- After `removeFromArray(ss, r)` has removed an element, a slice of the old
length over the same array shows the elements without `r`, followed by the
old last element once more. -/
theorem removeFromArray_view (ss : StrSlice) (r : String) (hfit : ss.len ≤ ss.array.length)
    (hr : r ∈ ss.elems) :
    ∃ x, ss.elems.getLast? = some x ∧
      (⟨(removeFromArray ss r).array, ss.len⟩ : StrSlice).elems = ss.elems.erase r ++ [x] := by
  have hlen := ss.length_elems hfit
  cases hlast : ss.elems.getLast? with
  | none =>
    rw [List.getLast?_eq_none_iff] at hlast
    rw [hlast] at hr
    cases hr
  | some x =>
    refine ⟨x, rfl, ?_⟩
    obtain ⟨init, hinit⟩ := List.getLast?_eq_some_iff.1 hlast
    have harr : ss.array = init ++ [x] ++ ss.array.drop ss.len := by
      rw [← hinit]
      exact (List.take_append_drop ss.len ss.array).symm
    have hn : ss.len = init.length + 1 := by
      rw [← hlen, hinit]; simp
    have hel : (ss.elems.erase r).length = init.length := by
      rw [List.length_erase_of_mem hr, hinit]; simp
    have hdrop : ss.array.drop (ss.elems.length - 1) = x :: ss.array.drop ss.len := by
      have h1 : ss.elems.length - 1 = init.length := by rw [hlen, hn]; rfl
      rw [h1]
      conv_lhs => rw [harr]
      rw [List.append_assoc, List.drop_left]
      rfl
    have key : ∀ (E T : List String) (n : Nat), n = E.length + 1 →
        List.take n (E ++ x :: T) = E ++ [x] := by
      intro E T n hnE
      subst hnE
      rw [List.take_append]
      rfl
    unfold removeFromArray
    rw [if_pos hr]
    show List.take ss.len (ss.elems.erase r ++ ss.array.drop (ss.elems.length - 1)) = _
    rw [hdrop]
    exact key _ _ _ (by rw [hel, hn])

theorem getLast?_filter_of_pos {l : List String} {x : String} (p : String → Bool)
    (hl : l.getLast? = some x) (hp : p x = true) : (l.filter p).getLast? = some x := by
  obtain ⟨init, rfl⟩ := List.getLast?_eq_some_iff.1 hl
  rw [List.filter_append]
  simp [List.filter_cons, hp]

/-- The options that `readFormulas` offers after the answer `Another formula`:
the entries of the listing without `docs` and `src`, or these followed by
their last one once more. -/
theorem options_after_choice (listing : List String) (hn : listing.Nodup)
    (hsrc : "src" ∈ listing.filter (fun n => n ≠ "docs")) :
    (removeFromArray
        ⟨(hasFormulaInDir (removeFromArray (StrSlice.ofList listing) docsDir)).2,
          (removeFromArray (StrSlice.ofList listing) docsDir).len⟩ srcDir).elems =
        (listing.filter (fun n => n ≠ "docs")).filter (fun n => n ≠ "src") ∨
    ∃ x, ((listing.filter (fun n => n ≠ "docs")).filter (fun n => n ≠ "src")).getLast? = some x ∧
      (removeFromArray
        ⟨(hasFormulaInDir (removeFromArray (StrSlice.ofList listing) docsDir)).2,
          (removeFromArray (StrSlice.ofList listing) docsDir).len⟩ srcDir).elems =
        (listing.filter (fun n => n ≠ "docs")).filter (fun n => n ≠ "src") ++ [x] := by
  have hfit0 : (StrSlice.ofList listing).len ≤ (StrSlice.ofList listing).array.length :=
    Nat.le_refl _
  have hfit := removeFromArray_fits (StrSlice.ofList listing) docsDir hfit0
  have helems : (removeFromArray (StrSlice.ofList listing) docsDir).elems =
      listing.filter (fun n => n ≠ "docs") := by
    rw [removeFromArray_elems, StrSlice.elems_ofList, docsDir, erase_eq_filter_ne hn]
  generalize removeFromArray (StrSlice.ofList listing) docsDir = dirs at hfit helems ⊢
  generalize hE : listing.filter (fun n => n ≠ "docs") = entries at helems hsrc ⊢
  have hnE : entries.Nodup := by rw [← hE]; exact hn.filter _
  have hdocs : "docs" ∉ dirs.elems := by
    rw [helems, ← hE]; simp
  have hsame : removeFromArray dirs docsDir = dirs := by
    unfold removeFromArray
    rw [docsDir, if_neg hdocs]
  have hhas : (hasFormulaInDir dirs).2 = (removeFromArray dirs srcDir).array := by
    simp only [hasFormulaInDir, hsame]
  have hsrc' : srcDir ∈ dirs.elems := by rw [helems]; exact hsrc
  obtain ⟨x, hx, hview⟩ := removeFromArray_view dirs srcDir hfit hsrc'
  rw [hhas, removeFromArray_elems, hview, helems]
  rw [helems] at hx
  have herase : entries.erase srcDir = entries.filter (fun n => n ≠ "src") :=
    erase_eq_filter_ne hnE "src"
  rw [herase]
  have hnot : srcDir ∉ entries.filter (fun n => n ≠ "src") := by
    simp [srcDir]
  by_cases hxs : x = srcDir
  · left
    rw [List.erase_append_right _ hnot, hxs]
    simp
  · right
    refine ⟨x, getLast?_filter_of_pos _ hx (by simpa [srcDir] using hxs), ?_⟩
    apply List.erase_of_not_mem
    intro hm
    rcases List.mem_append.1 hm with h1 | h1
    · exact hnot h1
    · simp at h1
      exact hxs h1.symm

set_option smartUnfolding false in
theorem readFormulasRef_eq (L : Path → Bool → Except Err (List String))
    (answers : List (Except Err String)) (dir : Path) (cur : String) :
    readFormulasRef L answers dir cur =
      match L dir false with
      | .error e => (.error e, answers, [])
      | .ok listing =>
        if "src" ∈ listing.filter (fun n => n ≠ "docs") then
          if (listing.filter (fun n => n ≠ "docs")).all (fun n => n = "src") then
            (.ok [], answers, [])
          else
            match answers with
            | [] => (.error (Err.msg "EOF"), [], [Offer.choice [cur, "Another formula"]])
            | .error e :: rest => (.error e, rest, [Offer.choice [cur, "Another formula"]])
            | .ok response :: rest =>
              if response = cur then (.ok [], rest, [Offer.choice [cur, "Another formula"]])
              else
                addOffer (Offer.choice [cur, "Another formula"])
                  (selectRef L ((listing.filter (fun n => n ≠ "docs")).filter
                    (fun n => n ≠ "src")) rest dir cur)
        else selectRef L (listing.filter (fun n => n ≠ "docs")) answers dir cur := by
  cases answers with
  | nil => rfl
  | cons a rest =>
    cases a with
    | error e => rfl
    | ok response =>
      cases rest with
      | nil => rfl
      | cons b rest1 =>
        cases b with
        | error e => rfl
        | ok selected =>
          have h : readFormulasRef L (.ok response :: .ok selected :: rest1) dir cur =
              match L dir false with
              | .error e => (.error e, .ok response :: .ok selected :: rest1, [])
              | .ok listing =>
                if "src" ∈ listing.filter (fun n => n ≠ "docs") then
                  if (listing.filter (fun n => n ≠ "docs")).all (fun n => n = "src") then
                    (.ok [], .ok response :: .ok selected :: rest1, [])
                  else
                    if response = cur then
                      (.ok [], .ok selected :: rest1, [Offer.choice [cur, "Another formula"]])
                    else
                      match readFormulasRef L rest1 (Join dir selected)
                          (cur ++ " " ++ selected) with
                      | (.error e, left, offers) => (.error e, left,
                          Offer.choice [cur, "Another formula"] ::
                            Offer.select ((listing.filter (fun n => n ≠ "docs")).filter
                              (fun n => n ≠ "src")) :: offers)
                      | (.ok aux, left, offers) => (.ok (selected :: aux), left,
                          Offer.choice [cur, "Another formula"] ::
                            Offer.select ((listing.filter (fun n => n ≠ "docs")).filter
                              (fun n => n ≠ "src")) :: offers)
                else selectRef L (listing.filter (fun n => n ≠ "docs"))
                  (.ok response :: .ok selected :: rest1) dir cur := rfl
          rw [h]
          cases L dir false with
          | error e => rfl
          | ok listing =>
            simp only [selectRef, addOffer]
            rcases readFormulasRef L rest1 (Join dir selected) (cur ++ " " ++ selected)
              with ⟨r, left, offers⟩
            cases r <;> rfl

theorem readFormulasFuel_succ (L : Path → Bool → Except Err (List String)) (found : String)
    (fuel : Nat) (dir : Path) (cur : String) (p : Prompts) :
    readFormulasFuel L found (fuel + 1) dir cur p =
      match L dir false with
      | .error e => some (.error e, p)
      | .ok listing =>
        if isFormula (removeFromArray (StrSlice.ofList listing) docsDir) then
          if !(hasFormulaInDir (removeFromArray (StrSlice.ofList listing) docsDir)).1 then
            some (.ok [], p)
          else
            match inListList p found [cur, optionOtherFormula] with
            | (.error e, p1) => some (.error e, p1)
            | (.ok response, p1) =>
              if response = cur then some (.ok [], p1)
              else
                selectAndDescend (readFormulasFuel L found fuel) dir cur
                  (removeFromArray
                    ⟨(hasFormulaInDir (removeFromArray (StrSlice.ofList listing) docsDir)).2,
                      (removeFromArray (StrSlice.ofList listing) docsDir).len⟩ srcDir) p1
        else
          selectAndDescend (readFormulasFuel L found fuel) dir cur
            (removeFromArray (StrSlice.ofList listing) docsDir) p := rfl

theorem selectAndDescend_ref (L : Path → Bool → Except Err (List String)) (found : String)
    (recurse : Path → String → Prompts → Option (Except Err (List String) × Prompts))
    (fuel : Nat)
    (hrec : ∀ dir cur (p : Prompts), p.answers.length < fuel →
      ∃ asked, recurse dir cur p = some ((readFormulasRef L p.answers dir cur).1,
          ⟨(readFormulasRef L p.answers dir cur).2.1, p.asked ++ asked⟩) ∧
        List.Forall₂ (Offered found) asked (readFormulasRef L p.answers dir cur).2.2)
    (dir : Path) (cur : String) (dirs : StrSlice) (options : List String) (p : Prompts)
    (hopt : dirs.elems = options ∨
      ∃ x, options.getLast? = some x ∧ dirs.elems = options ++ [x])
    (hp : p.answers.length < fuel + 1) :
    ∃ asked, selectAndDescend recurse dir cur dirs p =
        some ((selectRef L options p.answers dir cur).1,
          ⟨(selectRef L options p.answers dir cur).2.1, p.asked ++ asked⟩) ∧
      List.Forall₂ (Offered found) asked (selectRef L options p.answers dir cur).2.2 := by
  have hoff : Offered found (questionSelectFormulaGroup, dirs.elems) (Offer.select options) :=
    ⟨rfl, hopt⟩
  obtain ⟨answers, asked0⟩ := p
  cases answers with
  | nil =>
    exact ⟨[(questionSelectFormulaGroup, dirs.elems)], rfl,
      List.Forall₂.cons hoff List.Forall₂.nil⟩
  | cons a rest =>
    cases a with
    | error e =>
      exact ⟨[(questionSelectFormulaGroup, dirs.elems)], rfl,
        List.Forall₂.cons hoff List.Forall₂.nil⟩
    | ok selected =>
      have hlt : rest.length < fuel := by simpa using hp
      obtain ⟨asked, hr, hall⟩ := hrec (Join dir selected) (cur ++ " " ++ selected)
        ⟨rest, asked0 ++ [(questionSelectFormulaGroup, dirs.elems)]⟩ hlt
      refine ⟨(questionSelectFormulaGroup, dirs.elems) :: asked, ?_, ?_⟩
      · simp only [selectAndDescend, inListList, selectRef, hr]
        rcases readFormulasRef L rest (Join dir selected) (cur ++ " " ++ selected)
          with ⟨r, left, offers⟩
        cases r <;> simp
      · simp only [selectRef]
        simp only at hall
        generalize readFormulasRef L rest (Join dir selected) (cur ++ " " ++ selected) = w
          at hall ⊢
        obtain ⟨r, left, offers⟩ := w
        cases r <;> exact List.Forall₂.cons hoff hall

/-- With more fuel than answers, the walk of the source returns, and returns
what the reference walk returns, leaving the same answers unused, and its
prompts carry out the prompts of the reference walk one by one. -/
theorem readFormulasFuel_ref (L : Path → Bool → Except Err (List String)) (found : String)
    (hnd : ∀ d l, L d false = .ok l → l.Nodup) :
    ∀ (fuel : Nat) (dir : Path) (cur : String) (p : Prompts), p.answers.length < fuel →
      ∃ asked, readFormulasFuel L found fuel dir cur p =
          some ((readFormulasRef L p.answers dir cur).1,
            ⟨(readFormulasRef L p.answers dir cur).2.1, p.asked ++ asked⟩) ∧
        List.Forall₂ (Offered found) asked (readFormulasRef L p.answers dir cur).2.2 := by
  intro fuel
  induction fuel with
  | zero => intro dir cur p hp; exact absurd hp (Nat.not_lt_zero _)
  | succ fuel ih =>
    intro dir cur p hp
    rw [readFormulasFuel_succ, readFormulasRef_eq]
    cases hL : L dir false with
    | error e => exact ⟨[], by simp, List.Forall₂.nil⟩
    | ok listing =>
      have hn := hnd dir listing hL
      have helems : (removeFromArray (StrSlice.ofList listing) docsDir).elems =
          listing.filter (fun n => n ≠ "docs") := by
        rw [removeFromArray_elems, StrSlice.elems_ofList, docsDir, erase_eq_filter_ne hn]
      have hnd' : (removeFromArray (StrSlice.ofList listing) docsDir).elems.Nodup := by
        rw [helems]; exact hn.filter _
      have hdocs : "docs" ∉ (removeFromArray (StrSlice.ofList listing) docsDir).elems := by
        rw [helems]; simp
      have hhas := hasFormulaInDir_fst _ hnd' hdocs
      rw [helems] at hhas
      simp only
      by_cases hsrc : "src" ∈ listing.filter (fun n => n ≠ "docs")
      · have hisf : isFormula (removeFromArray (StrSlice.ofList listing) docsDir) = true := by
          rw [isFormula_iff, helems]; exact hsrc
        rw [if_pos hisf, if_pos hsrc, hhas]
        by_cases hall : (listing.filter (fun n => n ≠ "docs")).all (fun n => n = "src") = true
        · rw [if_pos hall]
          simp only [hall, Bool.not_true, Bool.not_false, ↓reduceIte]
          exact ⟨[], by simp, List.Forall₂.nil⟩
        · rw [if_neg hall]
          have hall' : (listing.filter (fun n => n ≠ "docs")).all (fun n => n = "src") = false := by
            simpa using hall
          simp only [hall', Bool.not_false, Bool.not_true, Bool.false_eq_true, ↓reduceIte]
          have hch : Offered found (found, [cur, optionOtherFormula])
              (Offer.choice [cur, "Another formula"]) := rfl
          obtain ⟨answers, asked0⟩ := p
          cases answers with
          | nil =>
            exact ⟨[(found, [cur, optionOtherFormula])], rfl,
              List.Forall₂.cons hch List.Forall₂.nil⟩
          | cons a rest =>
            cases a with
            | error e =>
              exact ⟨[(found, [cur, optionOtherFormula])], rfl,
                List.Forall₂.cons hch List.Forall₂.nil⟩
            | ok response =>
              simp only [inListList]
              by_cases hresp : response = cur
              · rw [if_pos hresp, if_pos hresp]
                exact ⟨[(found, [cur, optionOtherFormula])], rfl,
                  List.Forall₂.cons hch List.Forall₂.nil⟩
              · rw [if_neg hresp, if_neg hresp]
                obtain ⟨asked, hr, hforall⟩ := selectAndDescend_ref L found _ fuel ih dir cur _
                  ((listing.filter (fun n => n ≠ "docs")).filter (fun n => n ≠ "src"))
                  ⟨rest, asked0 ++ [(found, [cur, optionOtherFormula])]⟩
                  (options_after_choice listing hn hsrc)
                  (by simpa using Nat.lt_of_succ_lt hp)
                refine ⟨(found, [cur, optionOtherFormula]) :: asked, ?_, ?_⟩
                · rw [hr]
                  simp [addOffer]
                · exact List.Forall₂.cons hch hforall
      · have hisf : ¬ isFormula (removeFromArray (StrSlice.ofList listing) docsDir) = true := by
          rw [isFormula_iff, helems]; exact hsrc
        rw [if_neg hisf, if_neg hsrc]
        exact selectAndDescend_ref L found _ fuel ih dir cur _ _ p (Or.inl helems) hp

/-- The segments that the reference walk returns are answers given, in
their order. -/
theorem readFormulasRef_sublist (L : Path → Bool → Except Err (List String)) :
    ∀ (n : Nat) (answers : List (Except Err String)) (dir : Path) (cur : String)
      (segs : List String), answers.length < n →
      (readFormulasRef L answers dir cur).1 = .ok segs →
      (segs.map Except.ok).Sublist answers := by
  intro n
  induction n with
  | zero => intro answers dir cur segs hlt; exact absurd hlt (Nat.not_lt_zero _)
  | succ n ih =>
    have hsel : ∀ (options : List String) (answers : List (Except Err String)) (dir : Path)
        (cur : String) (segs : List String), answers.length < n + 1 →
        (selectRef L options answers dir cur).1 = .ok segs →
        (segs.map Except.ok).Sublist answers := by
      intro options answers dir cur segs hlt h
      cases answers with
      | nil => simp [selectRef] at h
      | cons a rest =>
        cases a with
        | error e => simp [selectRef] at h
        | ok selected =>
          simp only [selectRef] at h
          have hrest : rest.length < n := by simpa using hlt
          rcases hr : readFormulasRef L rest (Join dir selected) (cur ++ " " ++ selected)
            with ⟨r, left, offers⟩
          rw [hr] at h
          cases r with
          | error e => simp at h
          | ok aux =>
            simp only [Except.ok.injEq] at h
            subst h
            have := ih rest (Join dir selected) (cur ++ " " ++ selected) aux hrest
              (by rw [hr])
            simpa using this.cons₂ (Except.ok selected)
    intro answers dir cur segs hlt h
    rw [readFormulasRef_eq] at h
    cases hL : L dir false with
    | error e => rw [hL] at h; simp at h
    | ok listing =>
      rw [hL] at h
      simp only at h
      split at h
      · split at h
        · simp only [Except.ok.injEq] at h
          subst h
          simp
        · cases answers with
          | nil => simp at h
          | cons a rest =>
            cases a with
            | error e => simp at h
            | ok response =>
              simp only at h
              split at h
              · simp only [Except.ok.injEq] at h
                subst h
                simp
              · have := hsel _ rest dir cur segs (Nat.lt_of_succ_lt (by simpa using hlt))
                  (by simpa [addOffer] using h)
                exact this.cons _
      · exact hsel _ answers dir cur segs hlt h

/-! ### Claims -/

/-- The pruning that C1 describes, for segments that are directory names: on
a well-formed disk, for a non-empty sequence `S` of
directory names whose leaf `root/S` has no subdirectory other than `src` and
`bin`, a successful `deleteFormula(root, S, 0)` removes the leaf, and for
every strict prefix `P` of `S` with `1 ≤ len(P)` the directory `root/P`, which
existed, is gone afterwards exactly when the call for the next deeper level
(which handles the leaf and all deeper prefixes first) left it without
subdirectories; the workspace root is still a directory afterwards. -/
theorem deleteFormula_prunes_childless_ancestors (sys : Faults) (fs fs' : FS) (root : Path)
    (S : List String) (hwf : WF fs) (hS : S ≠ []) (hn : ∀ s ∈ S, isName s)
    (hleaf : ∀ n, stat fs (root ++ S ++ [n]) = some Node.dir → n = "src" ∨ n = "bin")
    (h : deleteFormula sys root S 0 fs = (none, fs')) :
    stat fs (root ++ S) = some Node.dir ∧ stat fs' (root ++ S) = none ∧
    (∀ i, 1 ≤ i → i < S.length →
      ∃ fsi, deleteFormula sys (root ++ S.take (i + 1)) S (i + 1) fs = (none, fsi) ∧
        stat fs (root ++ S.take i) = some Node.dir ∧
        (stat fs' (root ++ S.take i) = none ↔
          ∀ n, stat fsi (root ++ S.take i ++ [n]) ≠ some Node.dir)) ∧
    stat fs' root = some Node.dir := by
  have h0 : deleteFormulaFrom sys S 0 root fs = (none, fs') := by
    simpa [deleteFormula] using h
  have hj : JoinAll root S = root ++ S := JoinAll_names root S hn
  obtain ⟨b, hb⟩ := deleteFormulaFrom_reads_leaf h0
  rw [hj] at hb
  have hb0 : b = false := nestedFormula_false_of hwf hb hleaf
  subst hb0
  have hdir := (nestedFormula_ok hb).1
  refine ⟨hdir, ?_, ?_, ?_⟩
  · exact deleteFormulaFrom_leaf_gone (hj ▸ hb) h0 (hj ▸ under_refl _)
  · intro i hi1 hi2
    obtain ⟨fsi, h1, h2, h3⟩ := deleteFormulaFrom_prunes hwf hn h0 i hi2 (by omega)
    refine ⟨fsi, ?_, h2, h3⟩
    simpa [deleteFormula] using h1
  · have hroot : stat fs root = some Node.dir :=
      WF_ancestor hwf root S hS (by rw [hdir]; simp)
    rw [← hroot]
    apply (Confined_deleteFormulaFrom hwf h0).stat_eq
    have hlen : ∀ i, (JoinAll root (S.take i)).length = root.length + min i S.length := by
      intro i
      rw [JoinAll_names root (S.take i) (fun s hs => hn s (List.mem_of_mem_take hs))]
      simp
    have hSlen : 0 < S.length := List.length_pos.2 hS
    rintro (hu | ⟨i, hi, h1, hq | ⟨hq, hne, _⟩⟩)
    · rw [hj] at hu
      obtain ⟨r, hr⟩ := (under_iff _ _).1 hu
      have := congrArg List.length hr
      simp only [List.length_append] at this
      omega
    · have := congrArg List.length hq
      rw [hlen] at this
      omega
    · have := congrArg List.length hq
      rw [hlen, List.length_dropLast] at this
      omega

/-- The scenario of C1: `/ws` holding only `/ws/test/unit/src/main`, groups
`[test, unit]`: the leaf `/ws/test/unit` and `/ws/test` are removed and `/ws`
remains, with nothing in it. -/
theorem deleteFormula_prunes_childless_ancestors_witness :
    deleteFormula noFaults ["ws"] ["test", "unit"] 0 diskUnit = (none, [([], .dir), (["ws"], .dir)]) ∧
    (stat diskUnit (["ws"] ++ ["test", "unit"]) = some Node.dir ∧
     stat [([], Node.dir), (["ws"], Node.dir)] (["ws"] ++ ["test", "unit"]) = none ∧
     (∀ i, 1 ≤ i → i < ["test", "unit"].length →
      ∃ fsi, deleteFormula noFaults (["ws"] ++ ["test", "unit"].take (i + 1)) ["test", "unit"]
            (i + 1) diskUnit = (none, fsi) ∧
        stat diskUnit (["ws"] ++ ["test", "unit"].take i) = some Node.dir ∧
        (stat [([], Node.dir), (["ws"], Node.dir)] (["ws"] ++ ["test", "unit"].take i) = none ↔
          ∀ n, stat fsi (["ws"] ++ ["test", "unit"].take i ++ [n]) ≠ some Node.dir)) ∧
     stat [([], Node.dir), (["ws"], Node.dir)] ["ws"] = some Node.dir) :=
  ⟨by decide,
   deleteFormula_prunes_childless_ancestors noFaults diskUnit _ ["ws"] ["test", "unit"]
    (by decide) (by decide) (by decide)
    (by
      intro n hn
      have hm := mem_of_stat hn
      simp [diskUnit] at hm
      exact Or.inl hm)
    (by decide)⟩

/-- C1, at the failing input: the formula string `rit  x`, with two spaces,
gives the groups `["", "x"]`; `Join` drops the empty segment, so the call at
index 1 works on the workspace root `/ws` itself. The leaf `/ws/x`, an
existing formula that is not nested, is removed, and then `/ws`, left without
subdirectories, is removed too, past the `index == 0` guard. -/
theorem deleteFormula_double_space_removes_workspace_root :
    getGroupsFromFormulaName "rit  x" = .ok ["", "x"] ∧
    Join ["ws"] "" = ["ws"] ∧
    JoinAll ["ws"] ["", "x"] = ["ws", "x"] ∧
    stat diskX ["ws", "x"] = some Node.dir ∧
    nestedFormula noFaults diskX ["ws", "x"] = .ok false ∧
    stat diskX ["ws"] = some Node.dir ∧
    deleteFormula noFaults ["ws"] ["", "x"] 0 diskX = (none, [([], .dir)]) ∧
    stat (deleteFormula noFaults ["ws"] ["", "x"] 0 diskX).2 ["ws"] = none := by
  refine ⟨by decide, by decide, by decide, by decide, by decide, by decide, by decide,
    by decide⟩

/-- The code does not meet C1 for every segment sequence: the groups
`["", "x"]` resolve to the existing non-nested formula `/ws/x`, the call
succeeds, and the workspace root `/ws` is removed with it. -/
theorem deleteFormula_empty_segment_prunes_root :
    ¬ ∀ (sys : Faults) (fs fs' : FS) (root : Path) (S : List String),
      WF fs → S ≠ [] →
      stat fs (JoinAll root S) = some Node.dir →
      (∀ n, stat fs (JoinAll root S ++ [n]) = some Node.dir → n = "src" ∨ n = "bin") →
      deleteFormula sys root S 0 fs = (none, fs') →
      stat fs' root = some Node.dir := by
  intro hall
  have h := hall noFaults diskX [([], .dir)] ["ws"] ["", "x"] (by decide) (by decide)
    (by decide)
    (by
      intro n hn
      have hm := mem_of_stat hn
      have hj : JoinAll ["ws"] ["", "x"] = ["ws", "x"] := by decide
      rw [hj] at hm
      simp [diskX] at hm
      exact Or.inl hm)
    (by decide)
  revert h
  decide

/-- The safe removal that C2 describes, for segments that are directory
names: on a well-formed disk, for a sequence `S` of directory names whose
leaf `root/S` is nested, a successful `deleteFormula(root, S, 0)` removes the
leaf's `src` and `bin` subdirectories with everything beneath them and every
file directly in the leaf, and leaves the leaf directory itself and every
other subdirectory of the leaf, with everything beneath it, as it was. -/
theorem deleteFormula_nested_keeps_children (sys : Faults) (fs fs' : FS) (root : Path)
    (S : List String) (hwf : WF fs) (hn : ∀ s ∈ S, isName s)
    (hnest : ∃ n, n ≠ "src" ∧ n ≠ "bin" ∧ stat fs (root ++ S ++ [n]) = some Node.dir)
    (h : deleteFormula sys root S 0 fs = (none, fs')) :
    (∀ d, d = "src" ∨ d = "bin" → stat fs (root ++ S ++ [d]) = some Node.dir →
      ∀ q, under (root ++ S ++ [d]) q = true → stat fs' q = none) ∧
    (∀ n c, stat fs (root ++ S ++ [n]) = some (Node.file c) →
      stat fs' (root ++ S ++ [n]) = none) ∧
    stat fs' (root ++ S) = some Node.dir ∧
    (∀ n, n ≠ "src" → n ≠ "bin" → stat fs (root ++ S ++ [n]) = some Node.dir →
      ∀ q, under (root ++ S ++ [n]) q = true → stat fs' q = stat fs q) := by
  have h0 : deleteFormulaFrom sys S 0 root fs = (none, fs') := by
    simpa [deleteFormula] using h
  obtain ⟨b, hb⟩ := deleteFormulaFrom_reads_leaf h0
  rw [JoinAll_names root S hn] at hb
  obtain ⟨n0, hn1, hn2, hn3⟩ := hnest
  have hbt : b = true := nestedFormula_true_of hb hn1 hn2 hn3
  subst hbt
  have hs := deleteFormulaFrom_nested hwf hn hb h0
  have hdir := (nestedFormula_ok hb).1
  rcases safeRemoveFormula_cases sys (root ++ S) fs with ⟨e, _, he⟩ | ⟨_, he⟩
  · rw [he] at hs; cases hs
  rw [he] at hs
  have hjoin : ∀ {a : String} {n : Node}, stat fs (root ++ S ++ [a]) = some n →
      Join (root ++ S) a = root ++ S ++ [a] :=
    fun hst => Join_name _ _ (WF_child_name hwf (mem_of_stat hst))
  refine ⟨?_, ?_, ?_, ?_⟩
  · intro d hd hst q hq
    apply safeRemoveLoop_gone hs
    refine ⟨⟨d, true⟩, (mem_listing fs _ _).2 ⟨Node.dir, mem_of_stat hst, rfl⟩, Or.inl ⟨rfl, hd, ?_⟩⟩
    rw [hjoin hst]
    exact hq
  · intro n c hst
    apply safeRemoveLoop_gone hs
    refine ⟨⟨n, false⟩, (mem_listing fs _ _).2 ⟨Node.file c, mem_of_stat hst, rfl⟩, Or.inr ⟨rfl, ?_⟩⟩
    rw [hjoin hst]
  · rw [← hdir]
    apply (Confined_safeRemoveLoop hs).stat_eq
    intro hq
    obtain ⟨a, r, h⟩ := safeRemoved_under hwf hq
    have := congrArg List.length h
    simp at this
  · intro n h1 h2 hst q hq
    apply (Confined_safeRemoveLoop hs).stat_eq
    rintro ⟨f, hf, hcase⟩
    obtain ⟨nd, hm, hisd⟩ := (mem_listing fs _ f).1 hf
    rw [Join_name _ _ (WF_child_name hwf hm)] at hcase
    rcases hcase with ⟨_, hsb, hu⟩ | ⟨hfd, rfl⟩
    · have := under_snoc_inj hu hq
      rcases hsb with h3 | h3
      · exact h1 (this ▸ h3)
      · exact h2 (this ▸ h3)
    · have hfn : f.Name = n := under_snoc_inj (under_refl _) hq
      rw [hfn] at hm
      have := stat_of_mem hwf.1 hm
      rw [hst] at this
      cases this
      rw [hfd] at hisd
      cases hisd

/-- The scenario of C2: `/ws/test/src/main` and `/ws/test/group/src/main`, groups
`[test]`: only `/ws/test/src` is removed; `/ws/test` and
`/ws/test/group/src/main` stay. -/
theorem deleteFormula_nested_keeps_children_witness :
    deleteFormula noFaults ["ws"] ["test"] 0 diskNested = (none, diskNestedAfter) ∧
    ((∀ d, d = "src" ∨ d = "bin" → stat diskNested (["ws"] ++ ["test"] ++ [d]) = some Node.dir →
      ∀ q, under (["ws"] ++ ["test"] ++ [d]) q = true → stat diskNestedAfter q = none) ∧
    (∀ n c, stat diskNested (["ws"] ++ ["test"] ++ [n]) = some (Node.file c) →
      stat diskNestedAfter (["ws"] ++ ["test"] ++ [n]) = none) ∧
    stat diskNestedAfter (["ws"] ++ ["test"]) = some Node.dir ∧
    (∀ n, n ≠ "src" → n ≠ "bin" → stat diskNested (["ws"] ++ ["test"] ++ [n]) = some Node.dir →
      ∀ q, under (["ws"] ++ ["test"] ++ [n]) q = true →
        stat diskNestedAfter q = stat diskNested q)) :=
  ⟨by decide,
   deleteFormula_nested_keeps_children noFaults diskNested diskNestedAfter ["ws"] ["test"]
    (by decide) (by decide) ⟨"group", by decide, by decide, by decide⟩ (by decide)⟩

/-- C2, at the failing input: the formula string `rit test docs ..` gives the
groups `[test, docs, ..]`, whose leaf is the nested formula `/ws/test` with
the other subdirectory `docs`. The safe removal keeps `docs`, but on the way
back the call at index 2 works on `/ws/test/docs`, finds no subdirectory
there and removes it with its file, and the call at index 1 then removes
`/ws/test` itself. With the groups `[test]` both stay. -/
theorem deleteFormula_dotdot_removes_kept_child :
    getGroupsFromFormulaName "rit test docs .." = .ok ["test", "docs", ".."] ∧
    JoinAll ["ws"] ["test", "docs", ".."] = ["ws", "test"] ∧
    nestedFormula noFaults diskDocs ["ws", "test"] = .ok true ∧
    stat diskDocs ["ws", "test", "docs"] = some Node.dir ∧
    stat diskDocs ["ws", "test", "docs", "README.md"] = some (Node.file "r") ∧
    deleteFormula noFaults ["ws"] ["test", "docs", ".."] 0 diskDocs =
      (none, [([], .dir), (["ws"], .dir)]) ∧
    stat (deleteFormula noFaults ["ws"] ["test", "docs", ".."] 0 diskDocs).2
      ["ws", "test", "docs"] = none ∧
    stat (deleteFormula noFaults ["ws"] ["test", "docs", ".."] 0 diskDocs).2
      ["ws", "test"] = none ∧
    deleteFormula noFaults ["ws"] ["test"] 0 diskDocs =
      (none, [([], .dir), (["ws"], .dir), (["ws", "test"], .dir),
        (["ws", "test", "docs"], .dir), (["ws", "test", "docs", "README.md"], .file "r")]) := by
  refine ⟨by decide, by decide, by decide, by decide, by decide, by decide, by decide,
    by decide, by decide⟩

/-- The code does not meet C2 for every segment sequence: the groups
`[test, docs, ..]` have the nested formula `/ws/test` as their leaf; the
call succeeds, and on the way back it works on `/ws/test/docs`, finds no
subdirectory there and removes it, and then removes `/ws/test` itself. -/
theorem deleteFormula_dotdot_prunes_nested_child :
    ¬ ∀ (sys : Faults) (fs fs' : FS) (root : Path) (S : List String),
      WF fs →
      (∃ n, n ≠ "src" ∧ n ≠ "bin" ∧ stat fs (JoinAll root S ++ [n]) = some Node.dir) →
      deleteFormula sys root S 0 fs = (none, fs') →
      stat fs' (JoinAll root S) = some Node.dir ∧
      (∀ n, n ≠ "src" → n ≠ "bin" → stat fs (JoinAll root S ++ [n]) = some Node.dir →
        ∀ q, under (JoinAll root S ++ [n]) q = true → stat fs' q = stat fs q) := by
  intro hall
  have h := (hall noFaults diskDocs [([], .dir), (["ws"], .dir)] ["ws"] ["test", "docs", ".."]
    (by decide) ⟨"docs", by decide, by decide, by decide⟩ (by decide)).1
  revert h
  decide

/-- C3: on a well-formed disk, when every subdirectory of the leaf `root/S`
is named `src` or `bin`, a successful `deleteFormula(root, S, 0)` leaves no
path equal to or beneath `root/S`; the leaf was a directory before. -/
theorem deleteFormula_removes_leaf (sys : Faults) (fs fs' : FS) (root : Path)
    (S : List String) (hwf : WF fs)
    (hleaf : ∀ n, stat fs (JoinAll root S ++ [n]) = some Node.dir → n = "src" ∨ n = "bin")
    (h : deleteFormula sys root S 0 fs = (none, fs')) :
    stat fs (JoinAll root S) = some Node.dir ∧
    ∀ q, under (JoinAll root S) q = true → stat fs' q = none := by
  have h0 : deleteFormulaFrom sys S 0 root fs = (none, fs') := by
    simpa [deleteFormula] using h
  obtain ⟨b, hb⟩ := deleteFormulaFrom_reads_leaf h0
  have hb0 : b = false := nestedFormula_false_of hwf hb hleaf
  subst hb0
  exact ⟨(nestedFormula_ok hb).1, fun q hq => deleteFormulaFrom_leaf_gone hb h0 hq⟩

/-- C3, witness: deleting `[test, unit]` below `/ws` leaves nothing at or
beneath `/ws/test/unit`. -/
theorem deleteFormula_removes_leaf_witness :
    stat diskUnit (JoinAll ["ws"] ["test", "unit"]) = some Node.dir ∧
    ∀ q, under (JoinAll ["ws"] ["test", "unit"]) q = true →
      stat [([], Node.dir), (["ws"], Node.dir)] q = none :=
  deleteFormula_removes_leaf noFaults diskUnit _ ["ws"] ["test", "unit"] (by decide)
    (by
      intro n hn
      have hm := mem_of_stat hn
      have hj : JoinAll ["ws"] ["test", "unit"] = ["ws", "test", "unit"] := by decide
      rw [hj] at hm
      simp [diskUnit] at hm
      exact Or.inl hm)
    (by decide)

/-- C5, as amended: on a well-formed disk, after a successful
`deleteFormula(root, S, 0)`, for every path that is neither the leaf `root/S`,
nor beneath the leaf, nor one of the directories `root/P` for a strict prefix
`P` of `S`: if it is a non-directory file directly inside a directory `root/P`
with `1 ≤ len(P)` that the delete has removed, it is removed with that
directory; in every other case it is bound exactly as before. -/
theorem deleteFormula_keeps_siblings (sys : Faults) (fs fs' : FS) (root : Path)
    (S : List String) (q : Path) (hwf : WF fs)
    (h : deleteFormula sys root S 0 fs = (none, fs'))
    (hleaf : under (JoinAll root S) q = false)
    (hanc : ∀ i, i < S.length → q ≠ JoinAll root (S.take i)) :
    ((∃ i, i < S.length ∧ 1 ≤ i ∧ q.dropLast = JoinAll root (S.take i) ∧
        isFileAt fs q = true ∧ stat fs' (JoinAll root (S.take i)) = none) →
      stat fs' q = none) ∧
    ((∀ i, i < S.length → 1 ≤ i → q.dropLast = JoinAll root (S.take i) →
        isFileAt fs q = true → stat fs' (JoinAll root (S.take i)) ≠ none) →
      stat fs' q = stat fs q) := by
  have h0 : deleteFormulaFrom sys S 0 root fs = (none, fs') := by
    simpa [deleteFormula] using h
  have hwf' : WF fs' := WF_deleteFormulaFrom hwf h0
  refine ⟨?_, ?_⟩
  · rintro ⟨i, hi, _, hd, _, hgone⟩
    by_contra hne
    obtain ⟨n, hn⟩ := Option.ne_none_iff_exists'.1 hne
    have hq : q ≠ [] := by
      intro h0q
      apply hanc i hi
      rw [← hd, h0q]
      rfl
    rw [← List.dropLast_append_getLast hq] at hn
    have := WF_parent hwf' hn
    rw [hd, hgone] at this
    cases this
  · intro hkept
    rcases (Confined_deleteFormulaFrom hwf h0).stat_cases q with heq | ⟨hnone, _⟩
    · exact heq
    · by_cases hq : stat fs q = none
      · rw [hnone, hq]
      · exfalso
        rcases deleteFormulaFrom_removed hwf h0 hq hnone with
          hu | ⟨i, hi, h1, hgone, hqi | ⟨hd, _, c, hc⟩⟩
        · rw [hu] at hleaf; cases hleaf
        · exact hanc i hi hqi
        · exact hkept i hi (by omega) hd (by simp [isFileAt, hc]) hgone

/-- C5, witness: deleting `[test, unit]` below `/ws` leaves the file
`/ws/test/notes.txt` as it was when the group `/ws/test` still holds the
formula `other`, and removes it when the group is left without a
subdirectory and is removed. -/
theorem deleteFormula_keeps_siblings_witness :
    deleteFormula noFaults ["ws"] ["test", "unit"] 0 diskGroup = (none, diskGroupAfter) ∧
    stat diskGroupAfter ["ws", "test", "notes.txt"] = stat diskGroup ["ws", "test", "notes.txt"] ∧
    deleteFormula noFaults ["ws"] ["test", "unit"] 0 diskSiblings = (none, diskSiblingsAfter) ∧
    stat diskSiblingsAfter ["ws", "test", "notes.txt"] = none :=
  ⟨by decide,
   (deleteFormula_keeps_siblings noFaults diskGroup diskGroupAfter ["ws"] ["test", "unit"]
    ["ws", "test", "notes.txt"] (by decide) (by decide) (by decide) (by decide)).2 (by decide),
   by decide,
   (deleteFormula_keeps_siblings noFaults diskSiblings diskSiblingsAfter ["ws"]
    ["test", "unit"] ["ws", "test", "notes.txt"] (by decide) (by decide) (by decide)
    (by decide)).1 ⟨1, by decide, by decide, by decide, by decide, by decide⟩⟩

/-- C5, as stated, fails: deleting `[test, unit]` below `/ws` prunes the group
`/ws/test`, which has no subdirectory left, and with it the file
`/ws/test/notes.txt` that sat next to the formula. -/
theorem deleteFormula_prune_destroys_group_files :
    ¬ ∀ (sys : Faults) (fs fs' : FS) (root : Path) (S : List String) (q : Path),
      WF fs → S ≠ [] →
      deleteFormula sys root S 0 fs = (none, fs') →
      under (JoinAll root S) q = false →
      (∀ i, i < S.length → q ≠ JoinAll root (S.take i)) →
      stat fs' q = stat fs q := by
  intro hall
  have h := hall noFaults diskSiblings diskSiblingsAfter ["ws"] ["test", "unit"]
    ["ws", "test", "notes.txt"] (by decide) (by decide) (by decide) (by decide) (by decide)
  revert h
  decide

/-- C8: if a step of `deleteFormula(root, S, 0)` fails (reading the leaf or
a parent directory, removing the leaf, or removing an ancestor that is being
pruned), the call returns exactly that error, and the disk it leaves is the
disk at the moment of the failure: nothing is removed at a shallower level. -/
theorem deleteFormula_returns_first_failure (sys : Faults) (fs : FS) (root : Path)
    (S : List String) (e : Err) (fs1 : FS) (h : StepFails sys root S fs e fs1) :
    deleteFormula sys root S 0 fs = (some e, fs1) := by
  have hleafcall : deleteFormula sys (JoinAll root (S.take S.length)) S S.length fs =
      deleteFormulaFrom sys [] S.length (JoinAll root S) fs := by
    simp [deleteFormula]
  cases h with
  | leafRead _ hn =>
    apply deleteFormula_failure_rises sys root S fs S.length (le_refl _)
    rw [hleafcall]
    rcases deleteFormulaFrom_nil sys S.length (JoinAll root S) fs with
      ⟨e', h1, h2⟩ | ⟨h1, _⟩ | ⟨h1, _⟩
    · rw [hn] at h1; cases h1; exact h2
    · rw [hn] at h1; cases h1
    · rw [hn] at h1; cases h1
  | leafRemove _ _ hn hr =>
    apply deleteFormula_failure_rises sys root S fs S.length (le_refl _)
    rw [hleafcall]
    rcases deleteFormulaFrom_nil sys S.length (JoinAll root S) fs with
      ⟨e', h1, _⟩ | ⟨h1, _⟩ | ⟨_, h2⟩
    · rw [hn] at h1; cases h1
    · rw [hn] at h1; cases h1
    · rw [h2]; exact hr
  | leafSafeRemove _ _ hn hr =>
    apply deleteFormula_failure_rises sys root S fs S.length (le_refl _)
    rw [hleafcall]
    rcases deleteFormulaFrom_nil sys S.length (JoinAll root S) fs with
      ⟨e', h1, _⟩ | ⟨_, h2⟩ | ⟨h1, _⟩
    · rw [hn] at h1; cases h1
    · rw [h2]; exact hr
    · rw [hn] at h1; cases h1
  | parentRead i _ _ hi1 hi2 hd hc =>
    apply deleteFormula_failure_rises sys root S fs i (by omega)
    rcases deleteFormula_level sys root S i hi2 fs with
      ⟨e', fs', h1, _⟩ | ⟨fs', h1, ⟨h0, _⟩ | ⟨_, ⟨e', h2, h3⟩ | ⟨h2, _⟩ | ⟨h2, _⟩⟩⟩
    · rw [hd] at h1; cases h1
    · omega
    · rw [hd] at h1; cases h1
      rw [hc] at h2; cases h2
      exact h3
    · rw [hd] at h1; cases h1
      rw [hc] at h2; cases h2
    · rw [hd] at h1; cases h1
      rw [hc] at h2; cases h2
  | parentRemove i _ fs0 _ hi1 hi2 hd hc hr =>
    apply deleteFormula_failure_rises sys root S fs i (by omega)
    rcases deleteFormula_level sys root S i hi2 fs with
      ⟨e', fs', h1, _⟩ | ⟨fs', h1, ⟨h0, _⟩ | ⟨_, ⟨e', h2, _⟩ | ⟨_, h3⟩ | ⟨h2, _⟩⟩⟩
    · rw [hd] at h1; cases h1
    · omega
    · rw [hd] at h1; cases h1
      rw [hc] at h2; cases h2
    · rw [hd] at h1; cases h1
      rw [h3]; exact hr
    · rw [hd] at h1; cases h1
      rw [hc] at h2; cases h2

/-- C8, witness: `/ws/nope` does not exist; the call returns the error of
reading that directory and the disk is unchanged. -/
theorem deleteFormula_returns_first_failure_witness :
    deleteFormula noFaults ["ws"] ["nope"] 0 diskUnit =
      (some (Err.pathError "open" ["ws", "nope"]), diskUnit) :=
  deleteFormula_returns_first_failure noFaults diskUnit ["ws"] ["nope"] _ _
    (StepFails.leafRead _ (by decide))

/-- C6: for every string, `getGroupsFromFormulaName` cuts it at the single
spaces (the words contain no space and, joined by one space each, give the
string back); when the first word is `rit` it returns the remaining words in
order, and otherwise it fails with `ErrIncorrectFormulaName` and no segments.
`rit test unit` gives `[test, unit]`, `rit my amazing formula` gives
`[my, amazing, formula]`, and `other test` fails. -/
theorem getGroupsFromFormulaName_spec :
    (∀ s : String, ∃ w ws, Split s ' ' = w :: ws ∧
      List.intercalate [' '] ((w :: ws).map String.data) = s.data ∧
      (∀ x ∈ w :: ws, ' ' ∉ x.data) ∧
      (w = "rit" → getGroupsFromFormulaName s = .ok ws) ∧
      (w ≠ "rit" → getGroupsFromFormulaName s = .error Err.ErrIncorrectFormulaName)) ∧
    getGroupsFromFormulaName "rit test unit" = .ok ["test", "unit"] ∧
    getGroupsFromFormulaName "rit my amazing formula" = .ok ["my", "amazing", "formula"] ∧
    getGroupsFromFormulaName "other test" = .error Err.ErrIncorrectFormulaName := by
  refine ⟨?_, by decide, by decide, by decide⟩
  intro s
  rcases hs : Split s ' ' with _ | ⟨w, ws⟩
  · exact absurd hs (Split_ne_nil s ' ')
  refine ⟨w, ws, rfl, ?_, ?_, ?_, ?_⟩
  · rw [← hs]
    have : (Split s ' ').map String.data = splitChars ' ' s.data := by
      simp [Split, Function.comp_def]
    rw [this]
    exact splitChars_join ' ' s.data
  · intro x hx
    rw [← hs] at hx
    simp only [Split, List.mem_map] at hx
    obtain ⟨cs, hcs, rfl⟩ := hx
    exact splitChars_no_sep ' ' s.data cs hcs
  · intro hw
    rw [getGroupsFromFormulaName_eq, hs]
    simp [hw, cmdUse]
  · intro hw
    rw [getGroupsFromFormulaName_eq, hs]
    simp [hw, cmdUse]

/-- C9: for a registry whose names are pairwise different under case folding
and flag values `ws` and `f`, `resolveFlags` of the delete command succeeds
exactly when both values are non-empty, some registry name equals `ws` under
case folding and the first word of `f` is `rit`; it then returns that entry's
name and path with the words after `rit`. An empty `ws` gives the missing-flag
error for `workspace`; otherwise an empty `f` gives the one for `formula`;
otherwise a workspace that no entry matches gives the workspace-not-found
error. -/
theorem resolveFlags_spec (d : deleteFormulaCmd) (flags : String → Except Err String)
    (reg : List (String × String)) (ws f : String)
    (hw : flags workspaceFlagName = .ok ws) (hf : flags formulaFlagName = .ok f)
    (hreg : d.workspaceList = .ok reg)
    (huniq : reg.Pairwise (fun a b => EqualFold d.fold a.1 b.1 = false)) :
    ((∃ r, d.resolveFlags flags = .ok r) ↔
      (ws ≠ "" ∧ f ≠ "" ∧ (∃ e ∈ reg, EqualFold d.fold e.1 ws = true) ∧
        (Split f ' ').head? = some "rit")) ∧
    (∀ r, d.resolveFlags flags = .ok r → ∀ e ∈ reg, EqualFold d.fold e.1 ws = true →
      r = ⟨⟨e.1, e.2⟩, (Split f ' ').drop 1⟩) ∧
    (ws = "" → d.resolveFlags flags = .error (Err.msg (d.missingFlagText "workspace"))) ∧
    (ws ≠ "" → f = "" →
      d.resolveFlags flags = .error (Err.msg (d.missingFlagText "formula"))) ∧
    (ws ≠ "" → f ≠ "" → (∀ e ∈ reg, EqualFold d.fold e.1 ws = false) →
      d.resolveFlags flags = .error (Err.msg "no workspace found with this name")) := by
  have hun := resolveFlags_unfold d flags reg ws f hw hf hreg
  have hname : ∀ e ∈ reg, EqualFold d.fold e.1 ws = true → ws ≠ "" →
      (findWorkspace d.fold reg ws) = ⟨e.1, e.2⟩ ∧ e.1 ≠ "" := by
    intro e he hm hne
    refine ⟨findWorkspace_some d.fold ws reg huniq e he hm, ?_⟩
    intro h0
    rw [h0] at hm
    exact hne (EqualFold_empty hm)
  have hnone : (findWorkspace d.fold reg ws).Name ≠ "" →
      ∃ e ∈ reg, EqualFold d.fold e.1 ws = true := by
    intro h
    by_contra hno
    apply h
    rw [findWorkspace_none d.fold ws reg]
    intro e he
    cases hc : EqualFold d.fold e.1 ws with
    | false => rfl
    | true => exact absurd ⟨e, he, hc⟩ hno
  refine ⟨⟨?_, ?_⟩, ?_, ?_, ?_, ?_⟩
  · rintro ⟨r, hr⟩
    rw [hun] at hr
    by_cases h1 : ws = ""
    · simp [h1] at hr
    by_cases h2 : f = ""
    · simp [h1, h2] at hr
    by_cases h3 : (findWorkspace d.fold reg ws).Name = ""
    · simp [h1, h2, h3] at hr
    by_cases h4 : (Split f ' ').head? = some cmdUse
    · exact ⟨h1, h2, hnone h3, h4⟩
    · simp [h1, h2, h3, h4] at hr
  · rintro ⟨h1, h2, ⟨e, he, hm⟩, h4⟩
    obtain ⟨hfw, hen⟩ := hname e he hm h1
    have h4' : (Split f ' ').head? = some cmdUse := h4
    rw [hun, hfw]
    simp [h1, h2, hen, h4']
  · intro r hr e he hm
    rw [hun] at hr
    by_cases h1 : ws = ""
    · simp [h1] at hr
    by_cases h2 : f = ""
    · simp [h1, h2] at hr
    obtain ⟨hfw, hen⟩ := hname e he hm h1
    rw [hfw] at hr
    by_cases h4 : (Split f ' ').head? = some cmdUse
    · simp [h1, h2, hen, h4] at hr
      rw [← hr]
      simp
    · simp [h1, h2, hen, h4] at hr
  · intro h1
    rw [hun]
    simp [h1, workspaceFlagName]
  · intro h1 h2
    rw [hun]
    simp [h1, h2, formulaFlagName]
  · intro h1 h2 h3
    rw [hun, findWorkspace_none d.fold ws reg h3]
    simp [h1, h2]

/-- C9, witness: the registry `Default`, `Team` with the flag values `team`
and `rit test unit` resolves to the workspace `Team` at `/ws` and the groups
`[test, unit]`. -/
theorem resolveFlags_spec_witness :
    cmdTeam.resolveFlags flagsTeam = .ok ⟨⟨"Team", "/ws"⟩, ["test", "unit"]⟩ ∧
    ((∃ r, cmdTeam.resolveFlags flagsTeam = .ok r) ↔
      ("team" ≠ "" ∧ "rit test unit" ≠ "" ∧
        (∃ e ∈ [("Default", "/home/u/ritchie-formulas-local"), ("Team", "/ws")],
          EqualFold cmdTeam.fold e.1 "team" = true) ∧
        (Split "rit test unit" ' ').head? = some "rit")) :=
  ⟨by decide,
   (resolveFlags_spec cmdTeam flagsTeam
      [("Default", "/home/u/ritchie-formulas-local"), ("Team", "/ws")] "team" "rit test unit"
      (by decide) (by decide) (by decide) (by decide)).1⟩

/-- C10, as amended: when the workspace flag names a workspace of the registry
(with the default workspace added) and the old and new formula flags are
non-empty, the flag resolution of the rename command returns without error
only if the paths of the old and of the new formula, the words after the first
joined onto the workspace directory, both exist, and each of them lies under
the workspace directory when no word of its formula holds a `..` element; when
the old one does not exist the error message is `ErrFormula` filled with the
old formula and the workspace directory, and otherwise, when the new one does
not exist, `ErrFormula` filled with the new formula and the workspace
directory; when both exist there is no error. -/
theorem rename_resolveFlags_spec (r : renameFormulaCmd) (fs : FS)
    (flags : String → Except Err String) (workspaces : List (String × String))
    (name dir old new : String)
    (hw : flags workspaceFlagName = .ok name) (hname : name ≠ "")
    (hdir : mapGet (mapSet workspaces r.defaultWorkspaceName r.defaultWorkspaceDir) name
      = some dir)
    (ho : flags oldFormulaFlagName = .ok old) (hold : old ≠ "")
    (hn : flags newFormulaFlagName = .ok new) (hnew : new ≠ "") :
    ((r.resolveFlags fs flags workspaces).err = none →
      (r.directoryExists fs (JoinAll (toPath dir) (cleanFormula old)) = true ∧
        ((∀ w ∈ cleanFormula old, ".." ∉ Split w '/') →
          under (toPath dir) (JoinAll (toPath dir) (cleanFormula old)) = true)) ∧
      (r.directoryExists fs (JoinAll (toPath dir) (cleanFormula new)) = true ∧
        ((∀ w ∈ cleanFormula new, ".." ∉ Split w '/') →
          under (toPath dir) (JoinAll (toPath dir) (cleanFormula new)) = true))) ∧
    (r.directoryExists fs (JoinAll (toPath dir) (cleanFormula old)) = false →
      (r.resolveFlags fs flags workspaces).err = some (Err.msg (ErrFormula old dir))) ∧
    (r.directoryExists fs (JoinAll (toPath dir) (cleanFormula old)) = true →
      r.directoryExists fs (JoinAll (toPath dir) (cleanFormula new)) = false →
      (r.resolveFlags fs flags workspaces).err = some (Err.msg (ErrFormula new dir))) ∧
    (r.directoryExists fs (JoinAll (toPath dir) (cleanFormula old)) = true →
      r.directoryExists fs (JoinAll (toPath dir) (cleanFormula new)) = true →
      r.resolveFlags fs flags workspaces = ⟨⟨name, dir⟩, old, new, none⟩) := by
  have hunder : ∀ formula : String, (∀ w ∈ cleanFormula formula, ".." ∉ Split w '/') →
      under (toPath dir) (JoinAll (toPath dir) (cleanFormula formula)) = true :=
    fun formula hwords => JoinAll_under _ hwords _ (under_refl _)
  have hun : r.resolveFlags fs flags workspaces =
      if r.directoryExists fs (JoinAll (toPath dir) (cleanFormula old)) = false then
        ⟨⟨name, dir⟩, "", "", some (Err.msg (ErrFormula old dir))⟩
      else if r.directoryExists fs (JoinAll (toPath dir) (cleanFormula new)) = false then
        ⟨⟨name, dir⟩, old, "", some (Err.msg (ErrFormula new dir))⟩
      else ⟨⟨name, dir⟩, old, new, none⟩ := by
    simp only [renameFormulaCmd.resolveFlags, hw, hname, hdir, ho, hold, hn, hnew,
      renameFormulaCmd.formulaExistsInWorkspace]
    cases h1 : r.directoryExists fs (JoinAll (toPath dir) (cleanFormula old)) <;>
      cases h2 : r.directoryExists fs (JoinAll (toPath dir) (cleanFormula new)) <;> simp
  refine ⟨?_, ?_, ?_, ?_⟩
  · intro herr
    rw [hun] at herr
    cases h1 : r.directoryExists fs (JoinAll (toPath dir) (cleanFormula old)) <;>
      cases h2 : r.directoryExists fs (JoinAll (toPath dir) (cleanFormula new)) <;>
      simp [h1, h2] at herr
    exact ⟨⟨rfl, hunder old⟩, ⟨rfl, hunder new⟩⟩
  all_goals
  rw [hun]
  cases h1 : r.directoryExists fs (JoinAll (toPath dir) (cleanFormula old)) <;>
    cases h2 : r.directoryExists fs (JoinAll (toPath dir) (cleanFormula new)) <;> simp

/-- C10, witness: on the disk holding only `/ws/test/unit`, renaming
`rit test unit` to `rit test other` in the workspace `Team` fails with the
message that names `rit test other` and `/ws`. -/
theorem rename_resolveFlags_spec_witness :
    (cmdRename.resolveFlags diskUnit flagsRename [("Team", "/ws")]).err =
      some (Err.msg (ErrFormula "rit test other" "/ws")) :=
  (rename_resolveFlags_spec cmdRename diskUnit flagsRename [("Team", "/ws")] "Team" "/ws"
    "rit test unit" "rit test other" (by decide) (by decide) (by decide) (by decide)
    (by decide) (by decide) (by decide)).2.2.1 (by decide) (by decide)

/-- C10, as stated, fails: in the workspace `Team` at `/ws` the formulas
`rit .. home` and `rit .. home u` resolve to `/home` and `/home/u`, which
exist, and the resolution returns without error although neither path lies
under the workspace directory. -/
theorem rename_resolveFlags_accepts_paths_outside_workspace :
    ¬ ∀ (r : renameFormulaCmd) (fs : FS) (flags : String → Except Err String)
        (workspaces : List (String × String)) (name dir old new : String),
      flags workspaceFlagName = .ok name → name ≠ "" →
      mapGet (mapSet workspaces r.defaultWorkspaceName r.defaultWorkspaceDir) name
        = some dir →
      flags oldFormulaFlagName = .ok old → old ≠ "" →
      flags newFormulaFlagName = .ok new → new ≠ "" →
      (r.resolveFlags fs flags workspaces).err = none →
      (r.directoryExists fs (JoinAll (toPath dir) (cleanFormula old)) = true ∧
        under (toPath dir) (JoinAll (toPath dir) (cleanFormula old)) = true) ∧
      (r.directoryExists fs (JoinAll (toPath dir) (cleanFormula new)) = true ∧
        under (toPath dir) (JoinAll (toPath dir) (cleanFormula new)) = true) := by
  intro hall
  have h := (hall cmdRename diskMirror flagsRenameOutside [("Team", "/ws")] "Team" "/ws"
    "rit .. home" "rit .. home u" (by decide) (by decide) (by decide) (by decide)
    (by decide) (by decide) (by decide) (by decide)).1.2
  revert h
  decide


/-- C4, at the failing input: the batch payload with workspace path `/ws` and
formula `rit` resolves to no segment, and `runStdin` then deletes at the
workspace root itself: a workspace holding only a file is removed whole, and
in a workspace with formulas the files of the root are removed. With the same
empty segment list `runCmd` returns at once and changes nothing. -/
theorem runStdin_rit_deletes_workspace :
    getGroupsFromFormulaName "rit" = .ok [] ∧
    cmdTeam.runStdin (.ok ⟨"/ws", "rit"⟩) ⟨diskBare, []⟩ = (none, ⟨[([], .dir)], []⟩) ∧
    (cmdTeam.runStdin (.ok ⟨"/ws", "rit"⟩) ⟨diskSiblings, []⟩).1 = none ∧
    stat diskSiblings ["ws", "keep.txt"] = some (Node.file "k") ∧
    stat (cmdTeam.runStdin (.ok ⟨"/ws", "rit"⟩) ⟨diskSiblings, []⟩).2.fs ["ws", "keep.txt"] = none ∧
    (∀ (d : deleteFormulaCmd) (ws : Workspace) (w : World),
      d.runCmd (.ok ⟨ws, []⟩) w = (none, w)) := by
  refine ⟨by decide, by decide, by decide, by decide, by decide, ?_⟩
  intro d ws w
  simp [deleteFormulaCmd.runCmd]

/-- C7, as amended: in a run of `runCmd` with a non-empty segment list the
user workspace is deleted from first. When that delete fails, or the local
copy does not contain the path, no call to `Generate` or `Write` is made. When
the local copy contains the path and its delete succeeds, `Generate` is called
exactly once; if it fails nothing is written, and if it succeeds exactly one
`Write`, of `tree.json` at the root of the local copy, follows. -/
theorem runCmd_regenerates_once (d : deleteFormulaCmd) (df : DeleteFormula) (w : World)
    (hne : df.Formula ≠ []) :
    (∀ e fs1, deleteFormula d.sys (toPath df.Workspace.Dir) df.Formula 0 w.fs = (some e, fs1) →
      d.runCmd (.ok df) w = (some e, ⟨fs1, w.calls⟩)) ∧
    (∀ fs1, deleteFormula d.sys (toPath df.Workspace.Dir) df.Formula 0 w.fs = (none, fs1) →
      (d.formulaExistsInWorkspace fs1
          (Join (Join (toPath d.ritchieHomeDir) "repos") (d.LocalName df.Workspace.Name))
          df.Formula = false →
        d.runCmd (.ok df) w = (none, ⟨fs1, w.calls⟩)) ∧
      (d.formulaExistsInWorkspace fs1
          (Join (Join (toPath d.ritchieHomeDir) "repos") (d.LocalName df.Workspace.Name))
          df.Formula = true →
        (∀ e fs2, deleteFormula d.sys
            (Join (Join (toPath d.ritchieHomeDir) "repos") (d.LocalName df.Workspace.Name))
            df.Formula 0 fs1 = (some e, fs2) →
          d.runCmd (.ok df) w = (some e, ⟨fs2, w.calls⟩)) ∧
        (∀ fs2, deleteFormula d.sys
            (Join (Join (toPath d.ritchieHomeDir) "repos") (d.LocalName df.Workspace.Name))
            df.Formula 0 fs1 = (none, fs2) →
          (∀ e, d.treeGenGenerate fs2
              (Join (Join (toPath d.ritchieHomeDir) "repos") (d.LocalName df.Workspace.Name))
              = .error e →
            d.runCmd (.ok df) w = (some e, ⟨fs2, w.calls ++
              [Call.Generate (Join (Join (toPath d.ritchieHomeDir) "repos")
                (d.LocalName df.Workspace.Name))]⟩)) ∧
          (∀ json, d.treeGenGenerate fs2
              (Join (Join (toPath d.ritchieHomeDir) "repos") (d.LocalName df.Workspace.Name))
              = .ok json →
            (d.runCmd (.ok df) w).2.calls = w.calls ++
              [Call.Generate (Join (Join (toPath d.ritchieHomeDir) "repos")
                (d.LocalName df.Workspace.Name)),
               Call.Write (Join (Join (Join (toPath d.ritchieHomeDir) "repos")
                (d.LocalName df.Workspace.Name)) "tree.json")])))) := by
  have hlen : ¬ df.Formula.length = 0 := fun h => hne (List.length_eq_zero.1 h)
  refine ⟨?_, ?_⟩
  · intro e fs1 h1
    simp [deleteFormulaCmd.runCmd, hlen, h1]
  · intro fs1 h1
    refine ⟨?_, ?_⟩
    · intro hex
      simp [deleteFormulaCmd.runCmd, hlen, h1, deleteFormulaCmd.deleteLocalCopy, hex]
    · intro hex
      refine ⟨?_, ?_⟩
      · intro e fs2 h2
        simp [deleteFormulaCmd.runCmd, hlen, h1, deleteFormulaCmd.deleteLocalCopy, hex, h2]
      · intro fs2 h2
        refine ⟨?_, ?_⟩
        · intro e hg
          simp [deleteFormulaCmd.runCmd, hlen, h1, deleteFormulaCmd.deleteLocalCopy, hex, h2,
            deleteFormulaCmd.recreateTreeJSON, hg]
        · intro json hg
          simp only [deleteFormulaCmd.runCmd, hlen, h1, deleteFormulaCmd.deleteLocalCopy, hex, h2,
            deleteFormulaCmd.recreateTreeJSON, hg, ↓reduceIte]
          split <;> simp

/-- C7, witness: with the formula present in the user workspace and in the
local copy, the run makes one `Generate` call followed by one `Write` of
`tree.json`; with no local copy it makes none. -/
theorem runCmd_regenerates_once_witness :
    (cmdTeam.runCmd (.ok inputUnit) ⟨diskMirror, []⟩).2.calls =
      [Call.Generate ["home", "u", ".rit", "repos", "local-Team"],
       Call.Write ["home", "u", ".rit", "repos", "local-Team", "tree.json"]] ∧
    cmdTeam.runCmd (.ok inputUnit) ⟨diskUnit, []⟩ = (none, ⟨[([], .dir), (["ws"], .dir)], []⟩) :=
  have h := runCmd_regenerates_once cmdTeam inputUnit ⟨diskMirror, []⟩ (by decide)
  have h' := runCmd_regenerates_once cmdTeam inputUnit ⟨diskUnit, []⟩ (by decide)
  ⟨(((h.2 diskMirrorUser (by decide)).2 (by decide)).2 diskMirrorBoth (by decide)).2 "tree"
      (by decide),
   (h'.2 [([], .dir), (["ws"], .dir)] (by decide)).1 (by decide)⟩

/-- C7, as stated, fails: the formula is in the user workspace and in the
local copy and both deletes succeed, but the tree generator fails; `Generate`
has been called once and no `Write` of `tree.json` follows. -/
theorem runCmd_generate_failure_writes_nothing :
    ¬ ∀ (d : deleteFormulaCmd) (df : DeleteFormula) (w : World) (fs1 fs2 : FS),
      df.Formula ≠ [] →
      deleteFormula d.sys (toPath df.Workspace.Dir) df.Formula 0 w.fs = (none, fs1) →
      d.formulaExistsInWorkspace fs1
        (Join (Join (toPath d.ritchieHomeDir) "repos") (d.LocalName df.Workspace.Name))
        df.Formula = true →
      deleteFormula d.sys
        (Join (Join (toPath d.ritchieHomeDir) "repos") (d.LocalName df.Workspace.Name))
        df.Formula 0 fs1 = (none, fs2) →
      (d.runCmd (.ok df) w).2.calls = w.calls ++
        [Call.Generate (Join (Join (toPath d.ritchieHomeDir) "repos")
          (d.LocalName df.Workspace.Name)),
         Call.Write (Join (Join (Join (toPath d.ritchieHomeDir) "repos")
          (d.LocalName df.Workspace.Name)) "tree.json")] := by
  intro hall
  have h := hall cmdTeamNoTree inputUnit ⟨diskMirror, []⟩
    (deleteFormula noFaults ["ws"] ["test", "unit"] 0 diskMirror).2
    (deleteFormula noFaults ["home", "u", ".rit", "repos", "local-Team"] ["test", "unit"] 0
      (deleteFormula noFaults ["ws"] ["test", "unit"] 0 diskMirror).2).2
    (by decide) (by decide) (by decide) (by decide)
  revert h
  decide

/-- C11, as amended: whenever `getGroupsFromFormulaName` of the delete command
accepts a formula string, `cleanFormula` of the rename command yields the same
segments; `cleanFormula` itself rejects nothing: for every string it yields
the words after the first word, whatever that word is. -/
theorem cleanFormula_eq_groups_when_accepted (s : String) (gs : List String)
    (h : getGroupsFromFormulaName s = .ok gs) :
    cleanFormula s = gs ∧ (Split s ' ').head? = some "rit" ∧
    ∀ t : String, cleanFormula t = (Split t ' ').drop 1 := by
  rw [getGroupsFromFormulaName_eq] at h
  refine ⟨?_, ?_, fun t => rfl⟩
  · split at h
    · simp only [Except.ok.injEq] at h
      rw [← h]
      rfl
    · cases h
  · split at h
    · rename_i hh
      exact hh
    · cases h

/-- C11, witness: `rit test unit` gives `[test, unit]` in both commands. -/
theorem cleanFormula_eq_groups_when_accepted_witness :
    cleanFormula "rit test unit" = ["test", "unit"] ∧
    (Split "rit test unit" ' ').head? = some "rit" ∧
    ∀ t : String, cleanFormula t = (Split t ' ').drop 1 :=
  cleanFormula_eq_groups_when_accepted "rit test unit" ["test", "unit"] (by decide)

/-- C11, as stated, fails: `cleanFormula` yields the segments `[test]` for
`other test`, whose first word is not `rit` and which the delete command
rejects with `ErrIncorrectFormulaName`. -/
theorem cleanFormula_accepts_other_first_word :
    (¬ ∀ s : String,
      ((∃ segs, cleanFormula s = segs) ↔ ∃ gs, getGroupsFromFormulaName s = .ok gs)) ∧
    cleanFormula "other test" = ["test"] ∧
    getGroupsFromFormulaName "other test" = .error Err.ErrIncorrectFormulaName := by
  refine ⟨?_, by decide, by decide⟩
  intro hall
  obtain ⟨gs, hgs⟩ := (hall "other test").1 ⟨_, rfl⟩
  have herr : getGroupsFromFormulaName "other test" = .error Err.ErrIncorrectFormulaName := by
    decide
  rw [herr] at hgs
  cases hgs

/-- C12: when every listing has distinct names, `readFormulas` of the delete
command and of the rename command return, for every start directory, label and
sequence of prompt answers, what the reference walk returns, and leave the
same answers unused; the prompts they make are the prompts of the reference
walk, one by one and in order: the binary choice with exactly the current
formula label and `Another formula`, and the choice of a subdirectory with the
remaining subdirectories (the last of which may be listed once more); the
segments of a successful result are answers given, in their order; a failing
listing or prompt gives an error and no segments. -/
theorem readFormulas_follows_reference (L : Path → Bool → Except Err (List String))
    (hnd : ∀ d l, L d false = .ok l → l.Nodup) (dir : Path) (cur : String) (p : Prompts) :
    (∃ asked, deleteFormulaCmd.readFormulas L dir cur p =
        some ((readFormulasRef L p.answers dir cur).1,
          ⟨(readFormulasRef L p.answers dir cur).2.1, p.asked ++ asked⟩) ∧
      List.Forall₂ (Offered foundFormulaQuestion) asked
        (readFormulasRef L p.answers dir cur).2.2) ∧
    (∃ asked, renameFormulaCmd.readFormulas L dir cur p =
        some ((readFormulasRef L p.answers dir cur).1,
          ⟨(readFormulasRef L p.answers dir cur).2.1, p.asked ++ asked⟩) ∧
      List.Forall₂ (Offered foundFormulaRenamedQuestion) asked
        (readFormulasRef L p.answers dir cur).2.2) ∧
    (∀ segs, (readFormulasRef L p.answers dir cur).1 = .ok segs →
      (segs.map Except.ok).Sublist p.answers) :=
  ⟨readFormulasFuel_ref L foundFormulaQuestion hnd _ dir cur p (Nat.lt_succ_self _),
   readFormulasFuel_ref L foundFormulaRenamedQuestion hnd _ dir cur p (Nat.lt_succ_self _),
   fun segs h => readFormulasRef_sublist L _ p.answers dir cur segs (Nat.lt_succ_self _) h⟩

/-- C12, witness: in the workspace `/ws`, a formula that also holds the group
`test`, the answers `Another formula` and `test` give the segments `[test]`
after the binary choice and the choice of a subdirectory. -/
theorem readFormulas_follows_reference_witness :
    readFormulasRef listNested [.ok "Another formula", .ok "test"] ["ws"] "rit" =
      (.ok ["test"], [],
        [Offer.choice ["rit", "Another formula"], Offer.select ["test"]]) ∧
    (∃ asked, deleteFormulaCmd.readFormulas listNested ["ws"] "rit"
          ⟨[.ok "Another formula", .ok "test"], []⟩ = some (.ok ["test"], ⟨[], [] ++ asked⟩) ∧
        List.Forall₂ (Offered foundFormulaQuestion) asked
          [Offer.choice ["rit", "Another formula"], Offer.select ["test"]]) :=
  have href : readFormulasRef listNested [.ok "Another formula", .ok "test"] ["ws"] "rit" =
      (.ok ["test"], [],
        [Offer.choice ["rit", "Another formula"], Offer.select ["test"]]) := by decide
  have hnd : ∀ d l, listNested d false = .ok l → l.Nodup := by
    intro d l h
    unfold listNested at h
    split at h
    · cases h; decide
    · split at h
      · cases h; decide
      · cases h
  have h := (readFormulas_follows_reference listNested hnd ["ws"] "rit"
    ⟨[.ok "Another formula", .ok "test"], []⟩).1
  ⟨href, by rw [href] at h; exact h⟩

/-- C13, at the failing input: for the listing `[src, test]` and the answer
`Another formula`, `hasFormulaInDir` leaves the array of the caller's slice as
`[test, test]`, and the prompt for a formula or group is offered `test` twice. -/
theorem readFormulas_offers_last_entry_twice :
    hasFormulaInDir (StrSlice.ofList ["src", "test"]) = (true, ["test", "test"]) ∧
    deleteFormulaCmd.readFormulas listNested ["ws"] "rit"
        ⟨[.ok "Another formula", .ok "test"], []⟩ =
      some (.ok ["test"], ⟨[], [(foundFormulaQuestion, ["rit", "Another formula"]),
        (questionSelectFormulaGroup, ["test", "test"])]⟩) ∧
    renameFormulaCmd.readFormulas listNested ["ws"] "rit"
        ⟨[.ok "Another formula", .ok "test"], []⟩ =
      some (.ok ["test"], ⟨[], [(foundFormulaRenamedQuestion, ["rit", "Another formula"]),
        (questionSelectFormulaGroup, ["test", "test"])]⟩) := by
  refine ⟨by decide, by decide, by decide⟩

/-- C14: for a directory that can be read, `canDelete` answers true exactly
when no entry of the listing is a directory, however many other entries there
are, and any call that reads the same listing gives the same answer. -/
theorem canDelete_spec (sys : Faults) (fs : FS) (path : Path) (files : List FileInfo)
    (h : ReadDir sys fs path = .ok files) :
    (∃ b, canDelete sys fs path = .ok b ∧ (b = true ↔ ∀ f ∈ files, f.IsDir = false)) ∧
    ((files.filter (fun f => f.IsDir)).length = 0 → canDelete sys fs path = .ok true) ∧
    (∀ (sys' : Faults) (fs' : FS) (path' : Path), ReadDir sys' fs' path' = .ok files →
      canDelete sys' fs' path' = canDelete sys fs path) := by
  have hc : ∀ (sys' : Faults) (fs' : FS) (path' : Path), ReadDir sys' fs' path' = .ok files →
      canDelete sys' fs' path' = .ok (!files.any (fun f => f.IsDir)) := by
    intro sys' fs' path' h'
    simp only [canDelete, h']
  refine ⟨⟨_, hc sys fs path h, ?_⟩, ?_, ?_⟩
  · simp
  · intro hlen
    rw [hc sys fs path h]
    have hnil : files.filter (fun f => f.IsDir) = [] := List.length_eq_zero.1 hlen
    have hany : files.any (fun f => f.IsDir) = false := by
      rw [List.any_eq_false]
      intro f hf hd
      have hm : f ∈ files.filter (fun f => f.IsDir) := List.mem_filter.2 ⟨hf, hd⟩
      rw [hnil] at hm
      cases hm
    rw [hany]
    rfl
  · intro sys' fs' path' h'
    rw [hc sys' fs' path' h', hc sys fs path h]

/-- C14, witness: `/ws/test/docs` holds one file and no directory, and
`canDelete` answers true. -/
theorem canDelete_spec_witness :
    canDelete noFaults diskDocs ["ws", "test", "docs"] = .ok true :=
  (canDelete_spec noFaults diskDocs ["ws", "test", "docs"] [⟨"README.md", false⟩]
    (by decide)).2.1 (by decide)

end Ritchie
